import Mathlib

/-!
Verification of the AI-Blocks workflow graph engine
(`src/engine/graph.ts`, `src/engine/runner.ts`, `src/engine/evaluator.ts`).

The TypeScript source is shallowly embedded:
* JavaScript values flowing between blocks become the inductive `Value`
  (numbers are modelled exactly as rationals; the engine never does float
  arithmetic on block data, it only stores and passes values around).
* JavaScript *number arithmetic* inside the evaluator's scoring code is
  modelled by `JNum`, a rational extended with `nan`/`inf`/`ninf`, because
  the score computation divides by `trace.results.length`, which can be 0.
* Asynchrony: the runner awaits one block at a time, so a block is a pure
  function returning `Except String ExecutionResult`; a `.error` covers a
  rejected/thrown invocation (a timeout rejection behaves identically).
* Wall-clock timestamps/durations produced by `Date.now()` are frozen to 0;
  no claim depends on real time. Durations already recorded inside results
  and traces are kept as data.
* The recursive DFS `visit` of `topologicalSort` is embedded with an
  explicit fuel argument; the fuel-exhaustion branch is proved unreachable
  for the fuel supplied by `topologicalSort` (lemmas below), so the
  embedding has exactly the source's observable behaviours: a result list
  or a circular-dependency error.
-/

/-- JavaScript runtime values as passed between blocks. -/
inductive Value where
  | null
  | undefined
  | bool (b : Bool)
  | num (q : ℚ)
  | str (s : String)
  | obj (fields : List (String × Value))
  | arr (elems : List Value)

/-- JavaScript truthiness of a `Value` (used for `||` fallbacks). -/
def truthy : Value → Bool
  | .null => false
  | .undefined => false
  | .bool b => b
  | .num q => q != 0
  | .str s => s != ""
  | .obj _ => true
  | .arr _ => true

/-- JavaScript `a || b` on values. -/
def jsOr (a b : Value) : Value := if truthy a then a else b

/-- `Map.get`: `undefined` when the key is absent. -/
def mapGet (m : List (String × Value)) (k : String) : Value :=
  match m.lookup k with
  | some v => v
  | none => .undefined

/-- `Map.set`: the new binding shadows any older one. -/
def mapSet (m : List (String × Value)) (k : String) (v : Value) : List (String × Value) :=
  (k, v) :: m

/-- JavaScript object property assignment `o[k] = v`: overwrite in place if
the key exists (keeping its position), else append. -/
def objInsert (fields : List (String × Value)) (k : String) (v : Value) :
    List (String × Value) :=
  if (fields.map Prod.fst).contains k then
    fields.map (fun p => if p.1 = k then (k, v) else p)
  else
    fields ++ [(k, v)]

/-- `GraphNode` from `graph.ts` (the engine reads only `id` and `type`; the
display-only `position`/`data` fields are opaque to every function modelled
here and are elided). -/
structure GraphNode where
  id : String
  type : String

/-- `GraphEdge` from `graph.ts`. -/
structure GraphEdge where
  id : String
  source : String
  target : String
  sourceHandle : Option String := none
  targetHandle : Option String := none

/-- `Graph` from `graph.ts`. -/
structure Graph where
  nodes : List GraphNode
  edges : List GraphEdge

/-- `ExecutionResult` from `graph.ts`, with the nested `metadata` record
flattened (`timestamp` is wall-clock noise, kept as data). -/
structure ExecutionResult where
  nodeId : String
  input : Value
  output : Value
  timestamp : ℚ := 0
  duration : ℚ := 0
  tokens : Option ℚ := none
  apiCalls : Option ℚ := none
  error : Option String := none

/-- `ExecutionTrace` from `graph.ts`. -/
structure ExecutionTrace where
  results : List ExecutionResult
  totalTokens : ℚ
  totalApiCalls : ℚ
  totalDuration : ℚ
  success : Bool
  error : Option String := none

/-- The ids of the graph's nodes (the `nodeIds` set of `validateGraph`). -/
def nodeIds (g : Graph) : List String := g.nodes.map (·.id)

/-- The `dependencies` map of `topologicalSort`: for an id, the sources of
all edges targeting it, in edge order.  (The source also builds a
`dependents` map, which is never read afterwards; it is omitted.) -/
def depsOf (g : Graph) (id : String) : List String :=
  (g.edges.filter (fun e => e.target == id)).map (·.source)

/-- Every id mentioned by the graph (used only to size the DFS fuel). -/
def allIds (g : Graph) : List String :=
  g.nodes.map (·.id) ++ g.edges.map (·.source) ++ g.edges.map (·.target)

/-- The mutable state of `topologicalSort`'s DFS: the `visiting` and
`visited` sets (as insertion-ordered duplicate-free lists) and the `result`
array. -/
structure VisitState where
  visiting : List String
  visited : List String
  result : List String

/-- The cycle error message thrown by `visit`. -/
def cycMsg (nodeId : String) : String :=
  "Circular dependency detected involving node: " ++ nodeId

/-- `deps.forEach(depId => visit(depId))`: fold a visiting function over a
dependency list, short-circuiting on a thrown error. -/
def visitList (f : String → VisitState → Except String VisitState) :
    List String → VisitState → Except String VisitState
  | [], st => .ok st
  | id :: ids, st =>
    match f id st with
    | .error e => .error e
    | .ok st' => visitList f ids st'

/-- The recursive `visit` of `topologicalSort` (graph.ts:104-121), with
fuel making the recursion structural.  `topologicalSort` supplies enough
fuel that the `.error "fuel"` branch is unreachable (proved below). -/
def visit (deps : String → List String) : ℕ → String → VisitState →
    Except String VisitState
  | fuel, nodeId, st =>
    if nodeId ∈ st.visiting then
      .error (cycMsg nodeId)
    else if nodeId ∈ st.visited then
      .ok st
    else
      match fuel with
      | 0 => .error "fuel"
      | fuel' + 1 =>
        match visitList (fun id s => visit deps fuel' id s) (deps nodeId)
            { st with visiting := st.visiting ++ [nodeId] } with
        | .error e => .error e
        | .ok st2 =>
          .ok { visiting := st2.visiting.erase nodeId
              , visited := st2.visited ++ [nodeId]
              , result := st2.result ++ [nodeId] }

/-- The top-level loop of `topologicalSort`: visit every node not yet
visited, in node-array order. -/
def visitNodes (deps : String → List String) (fuel : ℕ) :
    List String → VisitState → Except String VisitState
  | [], st => .ok st
  | id :: ids, st =>
    if id ∈ st.visited then
      visitNodes deps fuel ids st
    else
      match visit deps fuel id st with
      | .error e => .error e
      | .ok st' => visitNodes deps fuel ids st'

/-- `topologicalSort` from `graph.ts:77-131`. -/
def topologicalSort (g : Graph) : Except String (List String) :=
  match visitNodes (depsOf g) ((allIds g).length + 1) (g.nodes.map (·.id))
      ⟨[], [], []⟩ with
  | .error e => .error e
  | .ok st => .ok st.result

/-- `getInputNodes` from `graph.ts:139-143`. -/
def getInputNodes (g : Graph) (nodeId : String) : List String :=
  (g.edges.filter (fun e => e.target == nodeId)).map (·.source)

/-- `getOutputNodes` from `graph.ts:151-155`. -/
def getOutputNodes (g : Graph) (nodeId : String) : List String :=
  (g.edges.filter (fun e => e.source == nodeId)).map (·.target)

/-- The result record of `validateGraph`. -/
structure ValidationResult where
  valid : Bool
  errors : List String

/-- `validateGraph` from `graph.ts:162-191`: one caught topological-sort
error, then per edge one error per missing endpoint.  (The source also
accumulates a `connectedNodes` set that it never reads; omitted.) -/
def validateGraph (g : Graph) : ValidationResult :=
  let topoErrors : List String :=
    match topologicalSort g with
    | .ok _ => []
    | .error e => ["Graph validation failed: " ++ e]
  let edgeErrors : List String :=
    g.edges.flatMap (fun e =>
      (if (nodeIds g).contains e.source then []
       else ["Edge references non-existent source node: " ++ e.source]) ++
      (if (nodeIds g).contains e.target then []
       else ["Edge references non-existent target node: " ++ e.target]))
  let errors := topoErrors ++ edgeErrors
  { valid := errors.length == 0, errors := errors }

/-! ### JavaScript number arithmetic for the evaluator's scoring code

The evaluator divides by `trace.results.length`, which may be `0`; in
JavaScript this produces `NaN` or `±Infinity`, which then propagate.  All
finite values arising here are exact rationals, so a rational extended with
the three special values models the computation exactly. -/

/-- A JavaScript number: a finite (exact) rational or a special value. -/
inductive JNum where
  | nan
  | inf
  | ninf
  | fin (q : ℚ)
deriving DecidableEq

/-- JavaScript `+`. -/
def jadd : JNum → JNum → JNum
  | .nan, _ => .nan
  | _, .nan => .nan
  | .inf, .ninf => .nan
  | .ninf, .inf => .nan
  | .inf, _ => .inf
  | _, .inf => .inf
  | .ninf, _ => .ninf
  | _, .ninf => .ninf
  | .fin a, .fin b => .fin (a + b)

/-- JavaScript unary `-`. -/
def jneg : JNum → JNum
  | .nan => .nan
  | .inf => .ninf
  | .ninf => .inf
  | .fin q => .fin (-q)

/-- JavaScript `-`. -/
def jsub (a b : JNum) : JNum := jadd a (jneg b)

/-- JavaScript `*`. -/
def jmul : JNum → JNum → JNum
  | .nan, _ => .nan
  | _, .nan => .nan
  | .inf, .inf => .inf
  | .inf, .ninf => .ninf
  | .ninf, .inf => .ninf
  | .ninf, .ninf => .inf
  | .inf, .fin q => if q = 0 then .nan else if 0 < q then .inf else .ninf
  | .fin q, .inf => if q = 0 then .nan else if 0 < q then .inf else .ninf
  | .ninf, .fin q => if q = 0 then .nan else if 0 < q then .ninf else .inf
  | .fin q, .ninf => if q = 0 then .nan else if 0 < q then .ninf else .inf
  | .fin a, .fin b => .fin (a * b)

/-- JavaScript `/` (division by zero yields `NaN` or `±Infinity`). -/
def jdiv : JNum → JNum → JNum
  | .nan, _ => .nan
  | _, .nan => .nan
  | .inf, .inf => .nan
  | .inf, .ninf => .nan
  | .ninf, .inf => .nan
  | .ninf, .ninf => .nan
  | .fin _, .inf => .fin 0
  | .fin _, .ninf => .fin 0
  | .inf, .fin q => if 0 ≤ q then .inf else .ninf
  | .ninf, .fin q => if 0 ≤ q then .ninf else .inf
  | .fin a, .fin b =>
    if b = 0 then
      if a = 0 then .nan else if 0 < a then .inf else .ninf
    else .fin (a / b)

/-- JavaScript `<` (false whenever `NaN` is involved). -/
def jlt : JNum → JNum → Bool
  | .nan, _ => false
  | _, .nan => false
  | .ninf, .ninf => false
  | .ninf, _ => true
  | _, .ninf => false
  | .inf, _ => false
  | .fin _, .inf => true
  | .fin a, .fin b => a < b

/-- JavaScript `<=` (false whenever `NaN` is involved). -/
def jle : JNum → JNum → Bool
  | .nan, _ => false
  | _, .nan => false
  | .ninf, _ => true
  | _, .ninf => false
  | _, .inf => true
  | .inf, .fin _ => false
  | .fin a, .fin b => a ≤ b

/-- `Math.max` (propagates `NaN`). -/
def jmax : JNum → JNum → JNum
  | .nan, _ => .nan
  | _, .nan => .nan
  | .inf, _ => .inf
  | _, .inf => .inf
  | .ninf, b => b
  | a, .ninf => a
  | .fin a, .fin b => .fin (max a b)

/-- `Math.min` (propagates `NaN`). -/
def jmin : JNum → JNum → JNum
  | .nan, _ => .nan
  | _, .nan => .nan
  | .ninf, _ => .ninf
  | _, .ninf => .ninf
  | .inf, b => b
  | a, .inf => a
  | .fin a, .fin b => .fin (min a b)

/-- `Math.round` (half away from zero is half toward `+∞` in JavaScript). -/
def jround : JNum → JNum
  | .nan => .nan
  | .inf => .inf
  | .ninf => .ninf
  | .fin q => .fin ((⌊q + 1/2⌋ : ℤ) : ℚ)

/-- `Math.ceil`. -/
def jceil : JNum → JNum
  | .nan => .nan
  | .inf => .inf
  | .ninf => .ninf
  | .fin q => .fin ((⌈q⌉ : ℤ) : ℚ)

/-! ### The Evaluator (`src/engine/evaluator.ts`) -/

/-- Truthiness of `result.metadata.error` (an optional string). -/
def errTruthy : Option String → Bool
  | none => false
  | some s => s != ""

/-- Strict inequality `r.input !== null` (note: `undefined !== null`). -/
def inputNotNull (r : ExecutionResult) : Bool :=
  match r.input with
  | .null => false
  | _ => true

/-- `Evaluator.calculateObservabilityScore` (evaluator.ts:192-225),
computed in JavaScript number arithmetic. -/
def calculateObservabilityScore (trace : ExecutionTrace) : JNum :=
  let score0 : JNum := .fin 0
  let score1 := if trace.success then jadd score0 (.fin 30) else score0
  let errorResults := trace.results.filter (fun r => errTruthy r.error)
  let score2 :=
    if errorResults.length = 0 then
      jadd score1 (.fin 20)
    else
      let totalResults := trace.results.length
      jadd score1 (jmax (.fin 0)
        (jsub (.fin 20)
          (jmul (jdiv (.fin errorResults.length) (.fin totalResults)) (.fin 20))))
  let avgDuration := jdiv (.fin trace.totalDuration) (.fin trace.results.length)
  let score3 :=
    if jlt avgDuration (.fin 1000) then jadd score2 (.fin 20)
    else if jlt avgDuration (.fin 3000) then jadd score2 (.fin 10)
    else score2
  let wellConnectedNodes := (trace.results.filter inputNotNull).length
  let connectionScore :=
    jmul (jdiv (.fin wellConnectedNodes) (.fin trace.results.length)) (.fin 30)
  let score4 := jadd score3 connectionScore
  jmin (.fin 100) (jround score4)

/-- The boolean-or-string-or-exception outcome of a test assertion. -/
inductive AssertOutcome where
  | bool (b : Bool)
  | str (s : String)
  | thrown (msg : String)

/-- `TestCase` from `evaluator.ts` (the assertion is an arbitrary function
of the trace; descriptions are elided). -/
structure TestCase where
  id : String
  name : String
  assertion : ExecutionTrace → List ExecutionResult → AssertOutcome
  points : ℚ
  category : String

/-- Star thresholds of a `LevelDefinition`. -/
structure StarThresholds where
  oneStar : ℚ
  twoStar : ℚ
  threeStar : ℚ

/-- `LevelDefinition` (the metadata fields the evaluator reads). -/
structure LevelDefinition where
  targetTokens : ℚ
  targetApiCalls : ℚ
  targetTime : ℚ
  tests : List TestCase
  starThresholds : StarThresholds

/-- `TestResult` from `runStore`. -/
structure TestResult where
  id : String
  name : String
  passed : Bool
  message : String
  nodeId : Option String := none

/-- `BudgetConstraint` from `runStore`. -/
structure BudgetConstraint where
  type : String
  limit : ℚ
  current : ℚ
  exceeded : Bool

/-- `EvaluationResult` from `runStore`. -/
structure EvaluationResult where
  passed : Bool
  score : JNum
  tests : List TestResult
  budgets : List BudgetConstraint
  observabilityScore : JNum

/-- `Evaluator.findFailureNode` (evaluator.ts:270-280). -/
def findFailureNode (trace : ExecutionTrace) : Option String :=
  match trace.results.find? (fun r => errTruthy r.error) with
  | some r => some r.nodeId
  | none =>
    match trace.results.getLast? with
    | some r => some r.nodeId
    | none => none

/-- `Evaluator.runTests` (evaluator.ts:122-153). -/
def runTests (trace : ExecutionTrace) (tests : List TestCase) : List TestResult :=
  tests.map (fun test =>
    match test.assertion trace trace.results with
    | .bool b =>
      { id := test.id, name := test.name, passed := b
      , message := if b then "Test passed" else "Test failed" }
    | .str s =>
      { id := test.id, name := test.name, passed := false
      , message := s, nodeId := findFailureNode trace }
    | .thrown msg =>
      { id := test.id, name := test.name, passed := false, message := msg })

/-- `Evaluator.checkBudgets` (evaluator.ts:158-187). -/
def checkBudgets (trace : ExecutionTrace) (level : LevelDefinition) :
    List BudgetConstraint :=
  let timeInSeconds : ℚ := ((⌈trace.totalDuration / 1000⌉ : ℤ) : ℚ)
  [ { type := "tokens", limit := level.targetTokens, current := trace.totalTokens
    , exceeded := level.targetTokens < trace.totalTokens }
  , { type := "apiCalls", limit := level.targetApiCalls, current := trace.totalApiCalls
    , exceeded := level.targetApiCalls < trace.totalApiCalls }
  , { type := "time", limit := level.targetTime, current := timeInSeconds
    , exceeded := level.targetTime < timeInSeconds } ]

/-- `Evaluator.calculateScore` (evaluator.ts:230-265). -/
def calculateScore (testResults : List TestResult) (budgets : List BudgetConstraint)
    (observabilityScore : JNum) (level : LevelDefinition) : JNum × Bool :=
  let passedTests := testResults.filter (·.passed)
  let totalTestPoints := (level.tests.map (·.points)).sum
  let earnedTestPoints := (passedTests.map (fun result =>
    match level.tests.find? (fun t => t.id == result.id) with
    | some t => t.points
    | none => 0)).sum
  let testScore : ℚ :=
    if 0 < totalTestPoints then earnedTestPoints / totalTestPoints * 70 else 0
  let exceededBudgets := (budgets.filter (·.exceeded)).length
  let budgetPenalty : ℚ := exceededBudgets * 10
  let observabilityBonus := jmul (jdiv observabilityScore (.fin 100)) (.fin 30)
  let rawScore := jsub (jadd (.fin testScore) observabilityBonus) (.fin budgetPenalty)
  let finalScore := jmax (.fin 0) (jmin (.fin 100) (jround rawScore))
  let allCriticalTestsPassed :=
    (testResults.filter (fun t =>
      match level.tests.find? (fun lt => lt.id == t.id) with
      | some lt => lt.category == "functionality"
      | none => false)).all (·.passed)
  let passed := allCriticalTestsPassed && jle (.fin level.starThresholds.oneStar) finalScore
  (finalScore, passed)

/-- `Evaluator.evaluate` (evaluator.ts:102-117). -/
def evaluate (trace : ExecutionTrace) (level : LevelDefinition) : EvaluationResult :=
  let testResults := runTests trace level.tests
  let budgetConstraints := checkBudgets trace level
  let observabilityScore := calculateObservabilityScore trace
  let sp := calculateScore testResults budgetConstraints observabilityScore level
  { passed := sp.2, score := sp.1, tests := testResults
  , budgets := budgetConstraints, observabilityScore := observabilityScore }

/-! ### The GraphRunner (`src/engine/runner.ts`)

The runner awaits exactly one block invocation at a time, so a block is
embedded as a pure function to `Except String ExecutionResult`: `.error`
covers a thrown/rejected invocation, including the timeout rejection of
`executeWithTimeout`, which the runner treats identically to any other
rejection.  `stop()` raises a flag polled between nodes; a single embedded
call observes it unset, so the poll is not modelled.  Callbacks
(`onProgress`/`onResult`) are modelled as an ordered event log. -/

/-- `ExecutionContext` (graph.ts:36-41); the wall-clock `timestamp` is
frozen to 0 and the `metadata.position` display datum is elided. -/
structure ExecutionContext where
  nodeId : String
  input : Value
  timestamp : ℚ := 0
  nodeType : String

/-- A block implementation: `Block.execute` from the registry. -/
def BlockFn := ExecutionContext → Except String ExecutionResult

/-- `RunnerOptions` (runner.ts:343-355); the callbacks become the event
log, and `timeout` is absorbed into the block's own outcome. -/
structure RunnerOptions where
  continueOnError : Bool := false

/-- One callback invocation made during a run. -/
inductive RunEvent where
  | progress (nodeId : String) (percent : ℚ)
  | result (r : ExecutionResult)

/-- The runner's per-run mutable state. -/
structure RunState where
  results : List ExecutionResult
  totalTokens : ℚ
  totalApiCalls : ℚ
  success : Bool
  error : Option String
  nodeOutputs : List (String × Value)
  completedNodes : ℕ
  events : List RunEvent

/-- Input fan-in (runner.ts:412-427): zero inbound edges yield `null`, one
yields the producer's stored output, several build an object keyed by the
`targetHandle` (with JavaScript `||` falling back to `input{index+1}`) of
the *first* edge from each source. -/
def resolveInput (g : Graph) (outputs : List (String × Value)) (nodeId : String) :
    Value :=
  let inputNodes := getInputNodes g nodeId
  match inputNodes with
  | [] => .null
  | [single] => mapGet outputs single
  | _ =>
    .obj (inputNodes.enum.foldl (fun acc p =>
      let inputEdge := g.edges.find? (fun e => e.source == p.2 && e.target == nodeId)
      let handleId :=
        match inputEdge with
        | some e =>
          match e.targetHandle with
          | some h => if h = "" then "input" ++ toString (p.1 + 1) else h
          | none => "input" ++ toString (p.1 + 1)
        | none => "input" ++ toString (p.1 + 1)
      objInsert acc handleId (mapGet outputs p.2)) [])

/-- The inbound edges of a node, in edge-array order (the edges whose
sources `getInputNodes` lists). -/
def inboundEdges (g : Graph) (nodeId : String) : List GraphEdge :=
  g.edges.filter (fun e => e.target == nodeId)

/-- The object key contributed by an inbound edge `e` at position `i` of
the fan-in: its `targetHandle` when set and nonempty (JavaScript `||`
treats the empty string as unset), else the positional key `input{i+1}`. -/
def fanInKey (e : GraphEdge) (i : ℕ) : String :=
  match e.targetHandle with
  | some h => if h = "" then "input" ++ toString (i + 1) else h
  | none => "input" ++ toString (i + 1)

/-- The error result synthesized by the per-node catch (runner.ts:479-488). -/
def synthErrorResult (st : RunState) (nodeId msg : String) : ExecutionResult :=
  { nodeId := nodeId
  , input := jsOr (mapGet st.nodeOutputs nodeId) .null
  , output := .null
  , timestamp := 0
  , duration := 0
  , error := some msg }

/-- The per-node catch block (runner.ts:475-499): record the synthesized
error result, emit it, then abort (`.error`, the outer catch's payload) or
continue with the run marked failed, per `continueOnError`. -/
def innerCatch (opts : RunnerOptions) (nodeId msg : String) (st : RunState) :
    Except (RunState × String) RunState :=
  let errorResult := synthErrorResult st nodeId msg
  let st' := { st with results := st.results ++ [errorResult]
                     , events := st.events ++ [RunEvent.result errorResult] }
  if opts.continueOnError then
    .ok { st' with success := false, error := some msg }
  else
    .error (st', "Execution failed at node " ++ nodeId ++ ": " ++ msg)

/-- One iteration of the execution loop (runner.ts:395-500) for one node.
`.error` is an exception escaping to the outer catch of `run`. -/
def stepNode (g : Graph) (registry : String → Option BlockFn) (opts : RunnerOptions)
    (totalNodes : ℕ) (st : RunState) (nodeId : String) :
    Except (RunState × String) RunState :=
  match g.nodes.find? (fun n => n.id == nodeId) with
  | none => .error (st, "Node not found: " ++ nodeId)
  | some node =>
    match registry node.type with
    | none => .error (st, "Unknown block type: " ++ node.type)
    | some block =>
      let nodeInput := resolveInput g st.nodeOutputs nodeId
      let context : ExecutionContext :=
        { nodeId := nodeId, input := nodeInput, nodeType := node.type }
      match block context with
      | .error msg => innerCatch opts nodeId msg st
      | .ok result =>
        let st1 := { st with
          nodeOutputs := mapSet st.nodeOutputs nodeId result.output
          , totalTokens := st.totalTokens +
              (match result.tokens with | some t => t | none => 0)
          , totalApiCalls := st.totalApiCalls +
              (match result.apiCalls with | some t => t | none => 0)
          , results := st.results ++ [result]
          , completedNodes := st.completedNodes + 1 }
        let st2 := { st1 with events := st1.events ++
          [ RunEvent.progress nodeId
              (((st.completedNodes + 1 : ℕ) : ℚ) / (totalNodes : ℚ) * 100)
          , RunEvent.result result ] }
        if errTruthy result.error then
          if opts.continueOnError then
            .ok { st2 with success := false, error := result.error }
          else
            innerCatch opts nodeId
              ("Block execution failed in " ++ nodeId ++ ": " ++
                (match result.error with | some s => s | none => "")) st2
        else
          .ok st2

/-- The execution loop over the topological order. -/
def runLoop (g : Graph) (registry : String → Option BlockFn) (opts : RunnerOptions)
    (totalNodes : ℕ) : List String → RunState → Except (RunState × String) RunState
  | [], st => .ok st
  | nodeId :: rest, st =>
    match stepNode g registry opts totalNodes st nodeId with
    | .error e => .error e
    | .ok st' => runLoop g registry opts totalNodes rest st'

/-- The runner's initial per-run state. -/
def initialRunState : RunState :=
  { results := [], totalTokens := 0, totalApiCalls := 0, success := true
  , error := none, nodeOutputs := [], completedNodes := 0, events := [] }

/-- Assemble the final `ExecutionTrace` (runner.ts:509-516); the wall-clock
`totalDuration` is frozen to 0. -/
def mkTrace (results : List ExecutionResult) (totalTokens totalApiCalls : ℚ)
    (success : Bool) (error : Option String) : ExecutionTrace :=
  { results := results, totalTokens := totalTokens, totalApiCalls := totalApiCalls
  , totalDuration := 0, success := success, error := error }

/-- `GraphRunner.run` (runner.ts:364-519).  `isRunning` is the runner's
reentrancy flag: a second concurrent call rejects (`.error`, the only
rejection); every other outcome — including validation failure — resolves
(`.ok`) with a trace, because the outer catch converts every escaping
exception into a failed trace. -/
def GraphRunner.run (isRunning : Bool) (g : Graph)
    (registry : String → Option BlockFn) (opts : RunnerOptions) :
    Except String (ExecutionTrace × List RunEvent) :=
  if isRunning then
    .error "Runner is already executing a graph"
  else
    let validation := validateGraph g
    if validation.valid = false then
      .ok (mkTrace [] 0 0 false
        (some ("Graph validation failed: " ++ String.intercalate ", " validation.errors)), [])
    else
      match topologicalSort g with
      | .error e => .ok (mkTrace [] 0 0 false (some e), [])
      | .ok executionOrder =>
        match runLoop g registry opts executionOrder.length executionOrder
            initialRunState with
        | .ok st =>
          .ok (mkTrace st.results st.totalTokens st.totalApiCalls st.success st.error,
               st.events)
        | .error (st, msg) =>
          .ok (mkTrace st.results st.totalTokens st.totalApiCalls false (some msg),
               st.events)

/-! ### The dependency relation and concrete example graphs -/

/-- `u` is an upstream dependency of `v`: some edge runs `u → v`. -/
def depRel (g : Graph) (u v : String) : Prop :=
  ∃ e ∈ g.edges, e.source = u ∧ e.target = v

/-- The graph's edge-induced dependency relation has no cycle (no id
reaches itself through one or more edges). -/
def Acyclic (g : Graph) : Prop :=
  ∀ a, ¬ Relation.TransGen (depRel g) a a

/-- A block that succeeds, echoing the context and emitting `out`. -/
def okBlock (out : Value) : BlockFn := fun ctx =>
  .ok { nodeId := ctx.nodeId, input := ctx.input, output := out }

/-- A block whose invocation rejects with `msg`. -/
def throwBlock (msg : String) : BlockFn := fun _ => .error msg

/-- A linear three-node graph `n1 → n2 → n3`. -/
def linGraph3 : Graph :=
  { nodes := [⟨"n1", "t1"⟩, ⟨"n2", "t2"⟩, ⟨"n3", "t3"⟩]
  , edges := [⟨"e1", "n1", "n2", none, none⟩, ⟨"e2", "n2", "n3", none, none⟩] }

/-- A registry for `linGraph3` whose middle block throws `msg` and whose
outer blocks succeed with outputs `va`/`vc`. -/
def linRegistry3 (va vc : Value) (msg : String) : String → Option BlockFn :=
  fun ty =>
    if ty = "t1" then some (okBlock va)
    else if ty = "t2" then some (throwBlock msg)
    else if ty = "t3" then some (okBlock vc)
    else none

/-- A graph whose single edge references two nonexistent nodes. -/
def gOrphanEdge : Graph :=
  { nodes := [⟨"n", "t"⟩], edges := [⟨"e", "x", "y", none, none⟩] }

/-- A graph with one node and one edge to a nonexistent target. -/
def gDanglingTarget : Graph :=
  { nodes := [⟨"n", "t"⟩], edges := [⟨"e", "n", "y", none, none⟩] }

/-- A two-node cycle between actual nodes. -/
def gNodeCycle : Graph :=
  { nodes := [⟨"a", "t"⟩, ⟨"b", "t"⟩]
  , edges := [⟨"e1", "a", "b", none, none⟩, ⟨"e2", "b", "a", none, none⟩] }

/-- A cycle between two ids that are not nodes of the graph. -/
def gOrphanCycle : Graph :=
  { nodes := []
  , edges := [⟨"e1", "x", "y", none, none⟩, ⟨"e2", "y", "x", none, none⟩] }

/-- Fan-in example: two edges from distinct sources into `R`, with handles
`a` and `b`. -/
def gFanIn : Graph :=
  { nodes := [⟨"P", "tp"⟩, ⟨"Q", "tq"⟩, ⟨"R", "tr"⟩]
  , edges := [⟨"e1", "P", "R", none, some "a"⟩, ⟨"e2", "Q", "R", none, some "b"⟩] }

/-- Fan-in example: two edges from the *same* source into `Q`, with
distinct handles `a` and `b`. -/
def gFanInDup : Graph :=
  { nodes := [⟨"P", "tp"⟩, ⟨"Q", "tq"⟩]
  , edges := [⟨"e1", "P", "Q", none, some "a"⟩, ⟨"e2", "P", "Q", none, some "b"⟩] }

/-- A linear two-node acyclic graph `A → B`. -/
def gLine2 : Graph :=
  { nodes := [⟨"A", "t"⟩, ⟨"B", "t"⟩], edges := [⟨"e", "A", "B", none, none⟩] }

/-- A clean one-result trace whose single node took 5000 ms. -/
def slowTrace : ExecutionTrace :=
  { results := [{ nodeId := "n", input := .num 0, output := .str "x" }]
  , totalTokens := 0, totalApiCalls := 0, totalDuration := 5000
  , success := true }

/-- A clean one-result trace whose single node took 500 ms. -/
def fastTrace : ExecutionTrace :=
  { results := [{ nodeId := "n", input := .num 0, output := .str "x" }]
  , totalTokens := 0, totalApiCalls := 0, totalDuration := 500
  , success := true }

/-- A successful trace with an empty results array. -/
def emptyTrace : ExecutionTrace :=
  { results := [], totalTokens := 0, totalApiCalls := 0, totalDuration := 0
  , success := true }

/-- A trivial level definition with no tests and generous budgets. -/
def trivialLevel : LevelDefinition :=
  { targetTokens := 1000, targetApiCalls := 10, targetTime := 60
  , tests := [], starThresholds := ⟨60, 80, 95⟩ }

/-- A one-node graph with no edges. -/
def gSingle : Graph := { nodes := [⟨"n", "t"⟩], edges := [] }

/-- A registry all of whose blocks throw. -/
def regThrowAll : String → Option BlockFn := fun _ => some (throwBlock "boom")

/-- The number of nodes in the execution order of a run over `g` (the
runner's `totalNodes`; 0 when the sort fails and the loop never runs). -/
def runTotalNodes (g : Graph) : ℕ :=
  match topologicalSort g with
  | .ok o => o.length
  | .error _ => 0

/-- The execution order of a run over `g` (empty when the sort fails). -/
def runOrder (g : Graph) : List String :=
  match topologicalSort g with
  | .ok o => o
  | .error _ => []

/-- Complete characterization of the runner's callback log against the
execution order and the recorded results, from `k` returned-result nodes
so far.  Reading the execution order left to right: a node whose block
invocation returns a result contributes exactly one `progress` call named
after that node with percent `(k+1)/N*100` immediately followed by the
`result` call recording the returned result (and, when that result flags
an application error under the abort policy, one further `result` call
with the error result synthesized for that node, ending the run); a node
whose invocation throws contributes exactly one `result` call with the
error result synthesized for that node (null output, error set) and no
`progress` call; aborting before a block invocation (stop, unknown node
or block type) and exhausting the order contribute nothing. -/
inductive RunLog (N : ℕ) : ℕ → List String → List ExecutionResult → List RunEvent → Prop
  | done (k : ℕ) (order : List String) : RunLog N k order [] []
  | ret (k : ℕ) (nodeId : String) (order : List String) (r : ExecutionResult)
      (results : List ExecutionResult) (events : List RunEvent) :
      RunLog N (k + 1) order results events →
      RunLog N k (nodeId :: order) (r :: results)
        (RunEvent.progress nodeId (((k + 1 : ℕ) : ℚ) / (N : ℚ) * 100) ::
          RunEvent.result r :: events)
  | retAbort (k : ℕ) (nodeId : String) (order : List String)
      (r errR : ExecutionResult) :
      errR.nodeId = nodeId → errR.output = Value.null → errR.error.isSome = true →
      RunLog N k (nodeId :: order) [r, errR]
        [RunEvent.progress nodeId (((k + 1 : ℕ) : ℚ) / (N : ℚ) * 100),
         RunEvent.result r, RunEvent.result errR]
  | threw (k : ℕ) (nodeId : String) (order : List String) (errR : ExecutionResult)
      (results : List ExecutionResult) (events : List RunEvent) :
      errR.nodeId = nodeId → errR.output = Value.null → errR.error.isSome = true →
      RunLog N k order results events →
      RunLog N k (nodeId :: order) (errR :: results) (RunEvent.result errR :: events)

/-- An unknown id feeding a chain that ends at a node: `x -> m -> n`
with only `n` a node of the graph. -/
def gChainDangling : Graph :=
  { nodes := [⟨"n", "t"⟩]
  , edges := [⟨"e1", "x", "m", none, none⟩, ⟨"e2", "m", "n", none, none⟩] }

/-- The ordering invariant of the DFS: every dependency of a node already
in the result occurs strictly earlier in the result. -/
def OrderedSt (g : Graph) (st : VisitState) : Prop :=
  ∀ u v, depRel g u v → v ∈ st.result → [u, v].Sublist st.result

/-- The structural invariant of the DFS state. -/
def GoodSt (g : Graph) (st : VisitState) : Prop :=
  st.visited = st.result ∧ st.result.Nodup ∧
  (∀ x ∈ st.visiting, x ∉ st.visited) ∧ OrderedSt g st

/-! ### C1, C6, C10: topological-sort correctness -/

/-- Membership in the dependency map agrees with the edge relation. -/
theorem mem_depsOf {g : Graph} {u v : String} : u ∈ depsOf g v ↔ depRel g u v := by
  unfold depsOf depRel
  simp only [List.mem_map, List.mem_filter, beq_iff_eq]
  constructor
  · rintro ⟨e, ⟨he, ht⟩, hs⟩
    exact ⟨e, he, hs, ht⟩
  · rintro ⟨e, he, hs, ht⟩
    exact ⟨e, ⟨he, ht⟩, hs⟩

theorem visitList_ok_inv (g : Graph) (f : String → VisitState → Except String VisitState)
    (hf : ∀ n st st', f n st = .ok st' → GoodSt g st →
      st'.visiting = st.visiting ∧ (∃ tl, st'.result = st.result ++ tl) ∧
      GoodSt g st' ∧ n ∈ st'.visited) :
    ∀ (ids : List String) (st st' : VisitState),
      visitList f ids st = .ok st' → GoodSt g st →
      st'.visiting = st.visiting ∧ (∃ tl, st'.result = st.result ++ tl) ∧
      GoodSt g st' ∧ ∀ id ∈ ids, id ∈ st'.visited := by
  intro ids
  induction ids with
  | nil =>
    intro st st' h hg
    cases h
    exact ⟨rfl, ⟨[], by simp⟩, hg, by simp⟩
  | cons id ids ih =>
    intro st st' h hg
    unfold visitList at h
    cases hstep : f id st with
    | error e => rw [hstep] at h; cases h
    | ok stm =>
      rw [hstep] at h
      obtain ⟨hv1, ⟨tl1, hr1⟩, hg1, hmem1⟩ := hf id st stm hstep hg
      obtain ⟨hv2, ⟨tl2, hr2⟩, hg2, hmem2⟩ := ih stm st' h hg1
      refine ⟨hv2.trans hv1, ⟨tl1 ++ tl2, by rw [hr2, hr1, List.append_assoc]⟩, hg2, ?_⟩
      intro x hx
      rcases List.mem_cons.mp hx with rfl | hx'
      · -- x was visited in stm; visited only grows
        have hvr1 : stm.visited = stm.result := hg1.1
        have hvr2 : st'.visited = st'.result := hg2.1
        rw [hvr2, hr2]
        rw [hvr1] at hmem1
        exact List.mem_append_left _ hmem1
      · exact hmem2 x hx'

theorem visit_ok_inv (g : Graph) :
    ∀ (fuel : ℕ) (n : String) (st st' : VisitState),
      visit (depsOf g) fuel n st = .ok st' → GoodSt g st →
      st'.visiting = st.visiting ∧ (∃ tl, st'.result = st.result ++ tl) ∧
      GoodSt g st' ∧ n ∈ st'.visited := by
  intro fuel
  induction fuel with
  | zero =>
    intro n st st' h hg
    unfold visit at h
    by_cases h1 : n ∈ st.visiting
    · rw [if_pos h1] at h; cases h
    · rw [if_neg h1] at h
      by_cases h2 : n ∈ st.visited
      · rw [if_pos h2] at h
        cases h
        exact ⟨rfl, ⟨[], by simp⟩, hg, h2⟩
      · rw [if_neg h2] at h
        cases h
  | succ f ih =>
    intro n st st' h hg
    unfold visit at h
    by_cases h1 : n ∈ st.visiting
    · rw [if_pos h1] at h; cases h
    · rw [if_neg h1] at h
      by_cases h2 : n ∈ st.visited
      · rw [if_pos h2] at h
        cases h
        exact ⟨rfl, ⟨[], by simp⟩, hg, h2⟩
      · rw [if_neg h2] at h
        simp only [] at h
        obtain ⟨hvr, hnd, hdisj, hord⟩ := hg
        have hg1 : GoodSt g { st with visiting := st.visiting ++ [n] } := by
          refine ⟨hvr, hnd, ?_, hord⟩
          intro x hx
          rcases List.mem_append.mp hx with hx' | hx'
          · exact hdisj x hx'
          · rw [List.mem_singleton.mp hx']
            exact h2
        cases hvl : visitList (fun id s => visit (depsOf g) f id s) (depsOf g n)
            { st with visiting := st.visiting ++ [n] } with
        | error e => rw [hvl] at h; cases h
        | ok st2 =>
          rw [hvl] at h
          cases h
          obtain ⟨hv2, ⟨tl2, hr2⟩, hg2, hdeps⟩ :=
            visitList_ok_inv g _ ih _ _ _ hvl hg1
          have hvisiting : (st2.visiting.erase n) = st.visiting := by
            rw [hv2]
            rw [List.erase_append_right _ h1, List.erase_cons_head, List.append_nil]
          have hnmem : n ∉ st2.result := by
            have hn2 : n ∈ st2.visiting := by
              rw [hv2]
              exact List.mem_append_right _ (List.mem_singleton_self n)
            have := hg2.2.2.1 n hn2
            rw [hg2.1] at this
            exact this
          refine ⟨hvisiting, ⟨tl2 ++ [n], by rw [hr2, List.append_assoc]⟩, ?_, ?_⟩
          · refine ⟨by rw [hg2.1], ?_, ?_, ?_⟩
            · simp only [List.nodup_append, hg2.2.1, List.nodup_cons,
                List.not_mem_nil, not_false_iff, List.nodup_nil, and_true, true_and]
              intro x hx hx'
              rw [List.mem_singleton.mp hx'] at hx
              exact hnmem hx
            · intro x hx
              rw [hvisiting] at hx
              have hx2 : x ∈ st2.visiting := by
                rw [hv2]
                exact List.mem_append_left _ hx
              have hxnv : x ∉ st2.visited := hg2.2.2.1 x hx2
              intro hmem
              rcases List.mem_append.mp hmem with hm | hm
              · exact hxnv hm
              · rw [List.mem_singleton.mp hm] at hx
                exact h1 hx
            · intro u v hdep hv
              rcases List.mem_append.mp hv with hm | hm
              · exact (hg2.2.2.2 u v hdep hm).trans (List.sublist_append_left _ _)
              · rw [List.mem_singleton.mp hm]
                have hu : u ∈ st2.result := by
                  rw [← hg2.1]
                  exact hdeps u (mem_depsOf.mpr (List.mem_singleton.mp hm ▸ hdep))
                exact List.Sublist.append (List.singleton_sublist.mpr hu)
                  (List.Sublist.refl [n])
          · exact List.mem_append_right _ (List.mem_singleton_self n)

theorem visitNodes_ok_inv (g : Graph) (fuel : ℕ) :
    ∀ (ids : List String) (st st' : VisitState),
      visitNodes (depsOf g) fuel ids st = .ok st' → GoodSt g st →
      st'.visiting = st.visiting ∧ (∃ tl, st'.result = st.result ++ tl) ∧
      GoodSt g st' ∧ ∀ id ∈ ids, id ∈ st'.visited := by
  intro ids
  induction ids with
  | nil =>
    intro st st' h hg
    cases h
    exact ⟨rfl, ⟨[], by simp⟩, hg, by simp⟩
  | cons id ids ih =>
    intro st st' h hg
    unfold visitNodes at h
    by_cases hmem : id ∈ st.visited
    · rw [if_pos hmem] at h
      obtain ⟨hv2, ⟨tl2, hr2⟩, hg2, hmem2⟩ := ih st st' h hg
      refine ⟨hv2, ⟨tl2, hr2⟩, hg2, ?_⟩
      intro x hx
      rcases List.mem_cons.mp hx with rfl | hx'
      · rw [hg2.1, hr2]
        rw [hg.1] at hmem
        exact List.mem_append_left _ hmem
      · exact hmem2 x hx'
    · rw [if_neg hmem] at h
      cases hstep : visit (depsOf g) fuel id st with
      | error e => rw [hstep] at h; cases h
      | ok stm =>
        rw [hstep] at h
        obtain ⟨hv1, ⟨tl1, hr1⟩, hg1, hmem1⟩ := visit_ok_inv g fuel id st stm hstep hg
        obtain ⟨hv2, ⟨tl2, hr2⟩, hg2, hmem2⟩ := ih stm st' h hg1
        refine ⟨hv2.trans hv1, ⟨tl1 ++ tl2, by rw [hr2, hr1, List.append_assoc]⟩, hg2, ?_⟩
        intro x hx
        rcases List.mem_cons.mp hx with rfl | hx'
        · rw [hg2.1, hr2]
          rw [hg1.1] at hmem1
          exact List.mem_append_left _ hmem1
        · exact hmem2 x hx'

/-- Structural specification of a successful sort: the result has no
duplicates, contains every node of the graph, and lists every dependency
of a listed id strictly before it. -/
theorem topologicalSort_ok_spec {g : Graph} {r : List String}
    (h : topologicalSort g = .ok r) :
    r.Nodup ∧ (∀ n ∈ g.nodes, n.id ∈ r) ∧
    (∀ u v, depRel g u v → v ∈ r → [u, v].Sublist r) := by
  unfold topologicalSort at h
  cases hvn : visitNodes (depsOf g) ((allIds g).length + 1) (g.nodes.map (·.id))
      ⟨[], [], []⟩ with
  | error e => rw [hvn] at h; cases h
  | ok stf =>
    rw [hvn] at h
    cases h
    have hginit : GoodSt g ⟨[], [], []⟩ := by
      refine ⟨rfl, List.nodup_nil, by simp, ?_⟩
      intro u v _ hv
      cases hv
    obtain ⟨_, _, hgf, hmem⟩ := visitNodes_ok_inv g _ _ _ _ hvn hginit
    refine ⟨hgf.2.1, ?_, ?_⟩
    · intro n hn
      have := hmem n.id (List.mem_map_of_mem (·.id) hn)
      rw [hgf.1] at this
      exact this
    · intro u v hdep hv
      exact hgf.2.2.2 u v hdep hv

theorem nodup_subset_length {l U : List String} (hnd : l.Nodup)
    (hsub : ∀ x ∈ l, x ∈ U) : l.length ≤ U.length := by
  have h1 : l.toFinset.card = l.length := List.toFinset_card_of_nodup hnd
  have h2 : l.toFinset ⊆ U.toFinset := by
    intro x hx
    rw [List.mem_toFinset] at hx ⊢
    exact hsub x hx
  have h3 : U.toFinset.card ≤ U.length := List.toFinset_card_le U
  calc l.length = l.toFinset.card := h1.symm
    _ ≤ U.toFinset.card := Finset.card_le_card h2
    _ ≤ U.length := h3

theorem depsOf_subset_allIds (g : Graph) (n : String) :
    ∀ d ∈ depsOf g n, d ∈ allIds g := by
  intro d hd
  unfold depsOf at hd
  obtain ⟨e, he, hs⟩ := List.mem_map.mp hd
  unfold allIds
  refine List.mem_append_left _ (List.mem_append_right _ ?_)
  exact hs ▸ List.mem_map_of_mem (·.source) (List.mem_filter.mp he).1

theorem nodes_subset_allIds (g : Graph) :
    ∀ x ∈ g.nodes.map (·.id), x ∈ allIds g := by
  intro x hx
  unfold allIds
  exact List.mem_append_left _ (List.mem_append_left _ hx)

theorem visitList_total (g : Graph) (f : String → VisitState → Except String VisitState)
    (c : ℕ)
    (hfok : ∀ n st st', f n st = .ok st' → GoodSt g st →
      st'.visiting = st.visiting ∧ (∃ tl, st'.result = st.result ++ tl) ∧
      GoodSt g st' ∧ n ∈ st'.visited)
    (hftot : ∀ n st, GoodSt g st → n ∈ allIds g →
      (∀ x ∈ st.visiting, Relation.TransGen (depRel g) n x) →
      st.visiting.Nodup → (∀ x ∈ st.visiting, x ∈ allIds g) →
      (allIds g).length + 1 ≤ c + st.visiting.length →
      (∃ st', f n st = .ok st') ∨
      (∃ m, f n st = .error (cycMsg m) ∧ Relation.TransGen (depRel g) m m)) :
    ∀ (ids : List String) (st : VisitState), GoodSt g st →
      (∀ id ∈ ids, id ∈ allIds g) →
      (∀ id ∈ ids, ∀ x ∈ st.visiting, Relation.TransGen (depRel g) id x) →
      st.visiting.Nodup → (∀ x ∈ st.visiting, x ∈ allIds g) →
      (allIds g).length + 1 ≤ c + st.visiting.length →
      (∃ st', visitList f ids st = .ok st') ∨
      (∃ m, visitList f ids st = .error (cycMsg m) ∧
        Relation.TransGen (depRel g) m m) := by
  intro ids
  induction ids with
  | nil =>
    intro st _ _ _ _ _ _
    exact .inl ⟨st, rfl⟩
  | cons id ids ih =>
    intro st hg hsub hchain hvnd hvsub hfuel
    rcases hftot id st hg (hsub id (List.mem_cons_self id ids))
        (hchain id (List.mem_cons_self id ids)) hvnd hvsub hfuel with
      ⟨stm, hstm⟩ | ⟨m, hm, hcyc⟩
    · obtain ⟨hveq, _, hgm, _⟩ := hfok id st stm hstm hg
      have hrest := ih stm hgm
        (fun x hx => hsub x (List.mem_cons_of_mem id hx))
        (fun x hx y hy => hchain x (List.mem_cons_of_mem id hx) y (hveq ▸ hy))
        (hveq ▸ hvnd) (fun y hy => hvsub y (hveq ▸ hy)) (by rw [hveq]; exact hfuel)
      unfold visitList
      rw [hstm]
      exact hrest
    · unfold visitList
      rw [hm]
      exact .inr ⟨m, rfl, hcyc⟩

theorem visit_total (g : Graph) :
    ∀ (fuel : ℕ) (n : String) (st : VisitState), GoodSt g st → n ∈ allIds g →
      (∀ x ∈ st.visiting, Relation.TransGen (depRel g) n x) →
      st.visiting.Nodup → (∀ x ∈ st.visiting, x ∈ allIds g) →
      (allIds g).length + 1 ≤ fuel + st.visiting.length →
      (∃ st', visit (depsOf g) fuel n st = .ok st') ∨
      (∃ m, visit (depsOf g) fuel n st = .error (cycMsg m) ∧
        Relation.TransGen (depRel g) m m) := by
  intro fuel
  induction fuel with
  | zero =>
    intro n st _ _ hchain hvnd hvsub hfuel
    by_cases h1 : n ∈ st.visiting
    · refine .inr ⟨n, ?_, hchain n h1⟩
      unfold visit
      rw [if_pos h1]
    · by_cases h2 : n ∈ st.visited
      · refine .inl ⟨st, ?_⟩
        unfold visit
        rw [if_neg h1, if_pos h2]
      · exfalso
        have := nodup_subset_length hvnd hvsub
        omega
  | succ f ih =>
    intro n st hg hU hchain hvnd hvsub hfuel
    by_cases h1 : n ∈ st.visiting
    · refine .inr ⟨n, ?_, hchain n h1⟩
      unfold visit
      rw [if_pos h1]
    · by_cases h2 : n ∈ st.visited
      · refine .inl ⟨st, ?_⟩
        unfold visit
        rw [if_neg h1, if_pos h2]
      · have hg1 : GoodSt g { st with visiting := st.visiting ++ [n] } := by
          refine ⟨hg.1, hg.2.1, ?_, hg.2.2.2⟩
          intro x hx
          rcases List.mem_append.mp hx with hx' | hx'
          · exact hg.2.2.1 x hx'
          · rw [List.mem_singleton.mp hx']
            exact h2
        have hlist := visitList_total g (fun id s => visit (depsOf g) f id s) f
          (fun m stA stB hAB hgA => visit_ok_inv g f m stA stB hAB hgA)
          (fun m stA hgA hmU hch hnd hsA hfA => ih m stA hgA hmU hch hnd hsA hfA)
          (depsOf g n) { st with visiting := st.visiting ++ [n] } hg1
          (depsOf_subset_allIds g n)
          (by
            intro d hd x hx
            rcases List.mem_append.mp hx with hx' | hx'
            · exact (Relation.TransGen.single (mem_depsOf.mp hd)).trans (hchain x hx')
            · rw [List.mem_singleton.mp hx']
              exact Relation.TransGen.single (mem_depsOf.mp hd))
          (by
            simp only [List.nodup_append, List.nodup_cons, List.not_mem_nil,
              not_false_iff, List.nodup_nil, and_true, true_and, hvnd]
            intro x hx hx'
            rw [List.mem_singleton.mp hx'] at hx
            exact h1 hx)
          (by
            intro x hx
            rcases List.mem_append.mp hx with hx' | hx'
            · exact hvsub x hx'
            · rw [List.mem_singleton.mp hx']
              exact hU)
          (by
            simp only [List.length_append, List.length_singleton]
            omega)
        rcases hlist with ⟨st2, hst2⟩ | ⟨m, hm, hcyc⟩
        · refine .inl ⟨⟨st2.visiting.erase n, st2.visited ++ [n], st2.result ++ [n]⟩, ?_⟩
          unfold visit
          rw [if_neg h1, if_neg h2]
          simp only []
          rw [hst2]
        · refine .inr ⟨m, ?_, hcyc⟩
          unfold visit
          rw [if_neg h1, if_neg h2]
          simp only []
          rw [hm]

theorem visitNodes_total (g : Graph) (fuel : ℕ)
    (hfuel : (allIds g).length + 1 ≤ fuel) :
    ∀ (ids : List String) (st : VisitState), GoodSt g st →
      (∀ id ∈ ids, id ∈ allIds g) → st.visiting = [] →
      (∃ st', visitNodes (depsOf g) fuel ids st = .ok st') ∨
      (∃ m, visitNodes (depsOf g) fuel ids st = .error (cycMsg m) ∧
        Relation.TransGen (depRel g) m m) := by
  intro ids
  induction ids with
  | nil =>
    intro st _ _ _
    exact .inl ⟨st, rfl⟩
  | cons id ids ih =>
    intro st hg hsub hempty
    unfold visitNodes
    by_cases hmem : id ∈ st.visited
    · rw [if_pos hmem]
      exact ih st hg (fun x hx => hsub x (List.mem_cons_of_mem id hx)) hempty
    · rw [if_neg hmem]
      rcases visit_total g fuel id st hg (hsub id (List.mem_cons_self id ids))
          (by rw [hempty]; intro x hx; cases hx)
          (by rw [hempty]; exact List.nodup_nil)
          (by rw [hempty]; intro x hx; cases hx)
          (by rw [hempty]; simpa using hfuel) with
        ⟨stm, hstm⟩ | ⟨m, hm, hcyc⟩
      · obtain ⟨hveq, _, hgm, _⟩ := visit_ok_inv g fuel id st stm hstm hg
        rw [hstm]
        exact ih stm hgm (fun x hx => hsub x (List.mem_cons_of_mem id hx))
          (hveq.trans hempty)
      · rw [hm]
        exact .inr ⟨m, rfl, hcyc⟩

/-- `topologicalSort` either succeeds or fails with a circular-dependency
error naming an id that lies on a cycle (and with the supplied fuel, no
other error is possible). -/
theorem topologicalSort_total (g : Graph) :
    (∃ r, topologicalSort g = .ok r) ∨
    (∃ m, topologicalSort g = .error (cycMsg m) ∧
      Relation.TransGen (depRel g) m m) := by
  have hginit : GoodSt g ⟨[], [], []⟩ := by
    refine ⟨rfl, List.nodup_nil, by simp, ?_⟩
    intro u v _ hv
    cases hv
  rcases visitNodes_total g ((allIds g).length + 1) (le_refl _)
      (g.nodes.map (·.id)) ⟨[], [], []⟩ hginit (nodes_subset_allIds g) rfl with
    ⟨stf, hstf⟩ | ⟨m, hm, hcyc⟩
  · refine .inl ⟨stf.result, ?_⟩
    unfold topologicalSort
    rw [hstf]
  · refine .inr ⟨m, ?_, hcyc⟩
    unfold topologicalSort
    rw [hm]

theorem pair_sublist_index {u v : String} :
    ∀ (r : List String), r.Nodup → [u, v].Sublist r → r.indexOf u < r.indexOf v := by
  intro r
  induction r with
  | nil => intro _ h; cases h
  | cons a r ih =>
    intro hnd h
    cases h with
    | cons _ h' =>
      have hu : u ∈ r := h'.subset (List.mem_cons_self u [v])
      have hv : v ∈ r := h'.subset (List.mem_cons_of_mem u (List.mem_singleton_self v))
      have hna : a ∉ r := (List.nodup_cons.mp hnd).1
      have hua : u ≠ a := fun hEq => hna (hEq ▸ hu)
      have hva : v ≠ a := fun hEq => hna (hEq ▸ hv)
      rw [List.indexOf_cons_ne _ (Ne.symm hua), List.indexOf_cons_ne _ (Ne.symm hva)]
      exact Nat.succ_lt_succ (ih (List.nodup_cons.mp hnd).2 h')
    | cons₂ _ h' =>
      have hv : v ∈ r := h'.subset (List.mem_singleton_self v)
      have hna : u ∉ r := (List.nodup_cons.mp hnd).1
      have hvu : v ≠ u := fun hEq => hna (hEq ▸ hv)
      rw [List.indexOf_cons_self, List.indexOf_cons_ne _ (Ne.symm hvu)]
      exact Nat.succ_pos _

theorem transGen_before {g : Graph} {r : List String}
    (hord : ∀ u v, depRel g u v → v ∈ r → [u, v].Sublist r) (hnd : r.Nodup) :
    ∀ b c, Relation.TransGen (depRel g) b c → c ∈ r →
      b ∈ r ∧ r.indexOf b < r.indexOf c := by
  intro b c htg
  induction htg with
  | single h1 =>
    intro hc
    have hsub := hord _ _ h1 hc
    exact ⟨hsub.subset (List.mem_cons_self _ _), pair_sublist_index r hnd hsub⟩
  | tail htg1 hstep ih =>
    intro hc
    have hsub := hord _ _ hstep hc
    have hmid := hsub.subset (List.mem_cons_self _ _)
    obtain ⟨hb, hlt⟩ := ih hmid
    exact ⟨hb, hlt.trans (pair_sublist_index r hnd hsub)⟩

/-- A rank function strictly increasing along edges certifies acyclicity. -/
theorem acyclic_of_rank (g : Graph) (f : String → ℕ)
    (h : ∀ u v, depRel g u v → f u < f v) : Acyclic g := by
  have key : ∀ b c, Relation.TransGen (depRel g) b c → f b < f c := by
    intro b c htg
    induction htg with
    | single h1 => exact h _ _ h1
    | tail _ h1 ih => exact ih.trans (h _ _ h1)
  intro a hcyc
  exact lt_irrefl _ (key a a hcyc)

/-- A graph whose only edge joins two distinct ids is acyclic. -/
theorem single_edge_acyclic (g : Graph) (e : GraphEdge) (hedges : g.edges = [e])
    (hne : e.source ≠ e.target) : Acyclic g := by
  apply acyclic_of_rank g (fun s => if s = e.target then 1 else 0)
  rintro u v ⟨e', he', hs, ht⟩
  rw [hedges, List.mem_singleton] at he'
  subst he'
  subst hs
  subst ht
  simp only [if_pos rfl, if_neg hne]
  exact Nat.zero_lt_one

/-- C1 (amended): for every acyclic graph, `topologicalSort` succeeds,
every node of the graph appears exactly once in the result, and every edge
whose target appears in the result (in particular every edge targeting a
node of the graph) has its source at a strictly earlier position.  (An
edge whose target is an unknown id reachable from no node leaves that
target out of the result entirely.) -/
theorem topologicalSort_acyclic_order (g : Graph) (hacyc : Acyclic g) :
    ∃ r, topologicalSort g = .ok r ∧
      (∀ n ∈ g.nodes, r.count n.id = 1) ∧
      (∀ e ∈ g.edges, e.target ∈ r → [e.source, e.target].Sublist r) := by
  rcases topologicalSort_total g with ⟨r, hr⟩ | ⟨m, _, hcyc⟩
  · obtain ⟨hnd, hmem, hord⟩ := topologicalSort_ok_spec hr
    refine ⟨r, hr, ?_, ?_⟩
    · intro n hn
      exact List.count_eq_one_of_mem hnd (hmem n hn)
    · intro e he hv
      exact hord e.source e.target ⟨e, he, rfl, rfl⟩ hv
  · exact absurd hcyc (hacyc m)

/-- C1 witness: the amended theorem applied to a concrete two-node line. -/
theorem topologicalSort_acyclic_order_witness :
    Acyclic gLine2 ∧
    ∃ r, topologicalSort gLine2 = .ok r ∧
      (∀ n ∈ gLine2.nodes, r.count n.id = 1) ∧
      (∀ e ∈ gLine2.edges, e.target ∈ r → [e.source, e.target].Sublist r) :=
  have hac : Acyclic gLine2 :=
    single_edge_acyclic gLine2 ⟨"e", "A", "B", none, none⟩ rfl (by decide)
  ⟨hac, topologicalSort_acyclic_order gLine2 hac⟩

/-- C1 counterexample: an acyclic graph with an edge to an unknown,
unreachable target id: the sort succeeds but the edge's target never
appears in the result, so "for every edge the source appears at an
earlier position than the target" fails — the target has no position. -/
theorem topologicalSort_dangling_target_counterexample :
    Acyclic gDanglingTarget ∧
    (∃ e ∈ gDanglingTarget.edges, e.source = "n" ∧ e.target = "y") ∧
    topologicalSort gDanglingTarget = .ok ["n"] ∧
    ("y" : String) ∉ ["n"] :=
  ⟨single_edge_acyclic gDanglingTarget ⟨"e", "n", "y", none, none⟩ rfl (by decide),
   ⟨⟨"e", "n", "y", none, none⟩, List.mem_singleton_self _, rfl, rfl⟩,
   rfl, by decide⟩

/-- C6 (amended): for every graph containing a cycle in the edge-induced
dependency relation, `validateGraph` reports `valid = false`; and whenever
an id on such a cycle is one of the graph's nodes, `topologicalSort` fails
with a circular-dependency error naming an id lying on a cycle — the
named id is the one on which the DFS first closes a loop and need not
itself be one of the graph's nodes.  (A cycle entirely among ids that are
not nodes is reached by no DFS root, so `topologicalSort` itself can
succeed — but the dangling edges still make validation fail.) -/
theorem cycle_detection_validate_and_sort (g : Graph) (a : String)
    (hcyc : Relation.TransGen (depRel g) a a) :
    (validateGraph g).valid = false ∧
    (a ∈ nodeIds g → ∃ m, topologicalSort g = .error (cycMsg m) ∧
      Relation.TransGen (depRel g) m m) := by
  have hpart2 : a ∈ nodeIds g → ∃ m, topologicalSort g = .error (cycMsg m) ∧
      Relation.TransGen (depRel g) m m := by
    intro ha
    rcases topologicalSort_total g with ⟨r, hr⟩ | hres
    · exfalso
      obtain ⟨hnd, hmem, hord⟩ := topologicalSort_ok_spec hr
      obtain ⟨n, hn, hid⟩ := List.mem_map.mp ha
      have har : a ∈ r := hid ▸ hmem n hn
      exact lt_irrefl _ (transGen_before hord hnd a a hcyc har).2
    · exact hres
  refine ⟨?_, hpart2⟩
  by_contra hvalid
  have hv : (validateGraph g).valid = true := by
    cases hb : (validateGraph g).valid
    · exact absurd hb hvalid
    · rfl
  have herrs : (validateGraph g).errors = [] := by
    have : (validateGraph g).errors.length == 0 := hv
    have hlen : (validateGraph g).errors.length = 0 := by
      simpa using this
    exact List.eq_nil_of_length_eq_zero hlen
  unfold validateGraph at herrs
  simp only [List.append_eq_nil] at herrs
  obtain ⟨htopo, hedges⟩ := herrs
  have hsortok : ∃ r, topologicalSort g = .ok r := by
    cases hs : topologicalSort g with
    | ok r => exact ⟨r, rfl⟩
    | error e => rw [hs] at htopo; cases htopo
  have hendpoints : ∀ e ∈ g.edges, e.source ∈ nodeIds g ∧ e.target ∈ nodeIds g := by
    intro e he
    have hflat := List.flatMap_eq_nil_iff.mp hedges e he
    simp only [List.append_eq_nil] at hflat
    constructor
    · by_cases hc : (nodeIds g).contains e.source
      · simpa using hc
      · rw [if_neg hc] at hflat
        cases hflat.1
    · by_cases hc : (nodeIds g).contains e.target
      · simpa using hc
      · rw [if_neg hc] at hflat
        cases hflat.2
  have ha : a ∈ nodeIds g := by
    cases hcyc with
    | single h1 =>
      obtain ⟨e, he, hs, _⟩ := h1
      exact hs ▸ (hendpoints e he).1
    | tail _ h1 =>
      obtain ⟨e, he, _, ht⟩ := h1
      exact ht ▸ (hendpoints e he).2
  obtain ⟨m, hm, _⟩ := hpart2 ha
  obtain ⟨r, hr⟩ := hsortok
  rw [hr] at hm
  cases hm

/-- C6 witness: the amended theorem applied to a two-node cycle. -/
theorem cycle_detection_validate_and_sort_witness :
    Relation.TransGen (depRel gNodeCycle) "a" "a" ∧
    ("a" : String) ∈ nodeIds gNodeCycle ∧
    (validateGraph gNodeCycle).valid = false ∧
    (∃ m, topologicalSort gNodeCycle = .error (cycMsg m) ∧
      Relation.TransGen (depRel gNodeCycle) m m) :=
  have hstep1 : depRel gNodeCycle "a" "b" :=
    ⟨⟨"e1", "a", "b", none, none⟩, by simp [gNodeCycle], rfl, rfl⟩
  have hstep2 : depRel gNodeCycle "b" "a" :=
    ⟨⟨"e2", "b", "a", none, none⟩, by simp [gNodeCycle], rfl, rfl⟩
  have hcyc : Relation.TransGen (depRel gNodeCycle) "a" "a" :=
    Relation.TransGen.tail (Relation.TransGen.single hstep1) hstep2
  have h := cycle_detection_validate_and_sort gNodeCycle "a" hcyc
  ⟨hcyc, by decide, h.1, h.2 (by decide)⟩

/-- C6 counterexample: a cycle entirely among ids that are not nodes of
the graph is never reached by the DFS (which starts only from nodes), so
`topologicalSort` succeeds even though the graph contains a cycle.
(`validateGraph` still reports `valid = false`, via the dangling edges.) -/
theorem cycle_nonnode_sort_succeeds_counterexample :
    Relation.TransGen (depRel gOrphanCycle) "x" "x" ∧
    topologicalSort gOrphanCycle = .ok [] :=
  have hstep1 : depRel gOrphanCycle "x" "y" :=
    ⟨⟨"e1", "x", "y", none, none⟩, by simp [gOrphanCycle], rfl, rfl⟩
  have hstep2 : depRel gOrphanCycle "y" "x" :=
    ⟨⟨"e2", "y", "x", none, none⟩, by simp [gOrphanCycle], rfl, rfl⟩
  ⟨Relation.TransGen.tail (Relation.TransGen.single hstep1) hstep2, rfl⟩

/-- Helper: a successful sort result is closed under dependency
chains: anything upstream of a listed id is listed. -/
theorem sort_result_dep_closed {g : Graph} {r : List String}
    (h : topologicalSort g = .ok r) :
    ∀ x t, Relation.ReflTransGen (depRel g) x t → t ∈ r → x ∈ r := by
  obtain ⟨-, -, hord⟩ := topologicalSort_ok_spec h
  intro x t hreach
  induction hreach with
  | refl => exact fun ht => ht
  | tail _ hstep ih =>
    intro ht
    exact ih ((hord _ _ hstep ht).subset (List.mem_cons_self _ _))

/-- C10 (amended): in an acyclic graph, an edge whose source id matches
no node still contributes that source id to the sort result whenever
the edge's target is one of the graph's nodes or some node depends on
the target through a chain of edges (the DFS starting from that node
reaches the target and then the source as dependencies); an edge on
which no node transitively depends is never visited and its source id
is absent from the (successful) result. -/
theorem topologicalSort_includes_dangling_source (g : Graph) (e : GraphEdge)
    (hacyc : Acyclic g) (he : e ∈ g.edges) (hsrc : e.source ∉ nodeIds g)
    (hreach : ∃ t ∈ nodeIds g, Relation.ReflTransGen (depRel g) e.target t) :
    ∃ r, topologicalSort g = .ok r ∧ e.source ∈ r := by
  obtain ⟨t, ht, hrt⟩ := hreach
  obtain ⟨r, hr, -, -⟩ := topologicalSort_acyclic_order g hacyc
  obtain ⟨n, hn, hid⟩ := List.mem_map.mp ht
  have htr : t ∈ r := by
    obtain ⟨-, hmem, -⟩ := topologicalSort_ok_spec hr
    exact hid ▸ hmem n hn
  have hsrcreach : Relation.ReflTransGen (depRel g) e.source t :=
    Relation.ReflTransGen.head ⟨e, he, rfl, rfl⟩ hrt
  exact ⟨r, hr, sort_result_dep_closed hr e.source t hsrcreach htr⟩

/-- C10 witness: the amended theorem applied to the chain
`x -> m -> n` where only `n` is a node: the unknown id `x` appears in
the result because node `n` transitively depends on it. -/
theorem topologicalSort_includes_dangling_source_witness :
    Acyclic gChainDangling ∧
    (⟨"e1", "x", "m", none, none⟩ : GraphEdge) ∈ gChainDangling.edges ∧
    ("x" : String) ∉ nodeIds gChainDangling ∧
    (∃ t ∈ nodeIds gChainDangling,
      Relation.ReflTransGen (depRel gChainDangling) "m" t) ∧
    ∃ r, topologicalSort gChainDangling = .ok r ∧ ("x" : String) ∈ r :=
  have hac : Acyclic gChainDangling := by
    apply acyclic_of_rank gChainDangling
      (fun s => if s = "n" then 2 else if s = "m" then 1 else 0)
    rintro u v ⟨e', he', hs, ht⟩
    simp only [gChainDangling, List.mem_cons, List.mem_singleton,
      List.not_mem_nil, or_false] at he'
    rcases he' with rfl | rfl
    · subst hs; subst ht; decide
    · subst hs; subst ht; decide
  have hreach : ∃ t ∈ nodeIds gChainDangling,
      Relation.ReflTransGen (depRel gChainDangling) "m" t :=
    ⟨"n", by decide,
     Relation.ReflTransGen.single
       ⟨⟨"e2", "m", "n", none, none⟩, by simp [gChainDangling], rfl, rfl⟩⟩
  ⟨hac, by simp [gChainDangling], by decide, hreach,
   topologicalSort_includes_dangling_source gChainDangling
     ⟨"e1", "x", "m", none, none⟩ hac (by simp [gChainDangling])
     (by decide) hreach⟩

/-- C10 counterexample: the claim as stated fails when the dangling
source's edge has an unknown, unreachable target: the DFS starts only from
nodes, never visits the edge's endpoints, and the nonexistent source id is
absent from the (successful) result. -/
theorem topologicalSort_unreachable_dangling_counterexample :
    Acyclic gOrphanEdge ∧
    (∃ e ∈ gOrphanEdge.edges, e.source = "x" ∧ e.source ∉ nodeIds gOrphanEdge) ∧
    topologicalSort gOrphanEdge = .ok ["n"] ∧
    ("x" : String) ∉ ["n"] :=
  ⟨single_edge_acyclic gOrphanEdge ⟨"e", "x", "y", none, none⟩ rfl (by decide),
   ⟨⟨"e", "x", "y", none, none⟩, List.mem_singleton_self _, rfl, by decide⟩,
   rfl, by decide⟩

/-! ### C9: progress callback behaviour -/

/-- Helper: the per-node catch records and emits exactly one result —
the error result synthesized for the node (null output, error set) —
and leaves the returned-result count unchanged. -/
theorem innerCatch_log (opts : RunnerOptions) (nodeId msg : String) (st : RunState) :
    (∀ st', innerCatch opts nodeId msg st = .ok st' →
      ∃ errR : ExecutionResult, errR.nodeId = nodeId ∧ errR.output = Value.null ∧
        errR.error.isSome = true ∧
        st'.results = st.results ++ [errR] ∧
        st'.events = st.events ++ [RunEvent.result errR] ∧
        st'.completedNodes = st.completedNodes) ∧
    (∀ st' m, innerCatch opts nodeId msg st = .error (st', m) →
      ∃ errR : ExecutionResult, errR.nodeId = nodeId ∧ errR.output = Value.null ∧
        errR.error.isSome = true ∧
        st'.results = st.results ++ [errR] ∧
        st'.events = st.events ++ [RunEvent.result errR] ∧
        st'.completedNodes = st.completedNodes) := by
  unfold innerCatch
  by_cases hc : opts.continueOnError = true
  · rw [if_pos hc]
    refine ⟨fun st' h => ?_, fun st' m h => ?_⟩
    · cases h
      exact ⟨synthErrorResult st nodeId msg, rfl, rfl, rfl, rfl, rfl, rfl⟩
    · cases h
  · rw [if_neg hc]
    refine ⟨fun st' h => ?_, fun st' m h => ?_⟩
    · cases h
    · cases h
      exact ⟨synthErrorResult st nodeId msg, rfl, rfl, rfl, rfl, rfl, rfl⟩

/-- Helper: one loop iteration extends results and events by exactly
one chunk: a progress-plus-result pair for a returned invocation, a
single synthesized error result for a thrown one, with the abort cases
enumerated on the error path. -/
theorem stepNode_log (g : Graph) (reg : String → Option BlockFn)
    (opts : RunnerOptions) (N : ℕ) (st : RunState) (nodeId : String) :
    (∀ st', stepNode g reg opts N st nodeId = .ok st' →
      (∃ r, st'.results = st.results ++ [r] ∧
        st'.events = st.events ++
          [RunEvent.progress nodeId
            (((st.completedNodes + 1 : ℕ) : ℚ) / (N : ℚ) * 100),
           RunEvent.result r] ∧
        st'.completedNodes = st.completedNodes + 1) ∨
      (∃ errR : ExecutionResult, errR.nodeId = nodeId ∧ errR.output = Value.null ∧
        errR.error.isSome = true ∧
        st'.results = st.results ++ [errR] ∧
        st'.events = st.events ++ [RunEvent.result errR] ∧
        st'.completedNodes = st.completedNodes)) ∧
    (∀ st' msg, stepNode g reg opts N st nodeId = .error (st', msg) →
      (st'.results = st.results ∧ st'.events = st.events) ∨
      (∃ errR : ExecutionResult, errR.nodeId = nodeId ∧ errR.output = Value.null ∧
        errR.error.isSome = true ∧
        st'.results = st.results ++ [errR] ∧
        st'.events = st.events ++ [RunEvent.result errR]) ∨
      (∃ r errR : ExecutionResult, errR.nodeId = nodeId ∧ errR.output = Value.null ∧
        errR.error.isSome = true ∧
        st'.results = st.results ++ [r, errR] ∧
        st'.events = st.events ++
          [RunEvent.progress nodeId
            (((st.completedNodes + 1 : ℕ) : ℚ) / (N : ℚ) * 100),
           RunEvent.result r, RunEvent.result errR])) := by
  have key : ∀ out : Except (RunState × String) RunState,
      stepNode g reg opts N st nodeId = out →
      (∀ st', out = .ok st' →
        (∃ r, st'.results = st.results ++ [r] ∧
          st'.events = st.events ++
            [RunEvent.progress nodeId
              (((st.completedNodes + 1 : ℕ) : ℚ) / (N : ℚ) * 100),
             RunEvent.result r] ∧
          st'.completedNodes = st.completedNodes + 1) ∨
        (∃ errR : ExecutionResult, errR.nodeId = nodeId ∧ errR.output = Value.null ∧
          errR.error.isSome = true ∧
          st'.results = st.results ++ [errR] ∧
          st'.events = st.events ++ [RunEvent.result errR] ∧
          st'.completedNodes = st.completedNodes)) ∧
      (∀ st' msg, out = .error (st', msg) →
        (st'.results = st.results ∧ st'.events = st.events) ∨
        (∃ errR : ExecutionResult, errR.nodeId = nodeId ∧ errR.output = Value.null ∧
          errR.error.isSome = true ∧
          st'.results = st.results ++ [errR] ∧
          st'.events = st.events ++ [RunEvent.result errR]) ∨
        (∃ r errR : ExecutionResult, errR.nodeId = nodeId ∧ errR.output = Value.null ∧
          errR.error.isSome = true ∧
          st'.results = st.results ++ [r, errR] ∧
          st'.events = st.events ++
            [RunEvent.progress nodeId
              (((st.completedNodes + 1 : ℕ) : ℚ) / (N : ℚ) * 100),
             RunEvent.result r, RunEvent.result errR])) := by
    intro out hout
    unfold stepNode at hout
    cases hfind : g.nodes.find? (fun n => n.id == nodeId) with
    | none =>
      simp only [hfind] at hout
      subst hout
      refine ⟨?_, ?_⟩
      · intro st' h
        cases h
      · intro st' msg h
        cases h
        exact .inl ⟨rfl, rfl⟩
    | some node =>
      simp only [hfind] at hout
      cases hreg : reg node.type with
      | none =>
        simp only [hreg] at hout
        subst hout
        refine ⟨?_, ?_⟩
        · intro st' h
          cases h
        · intro st' msg h
          cases h
          exact .inl ⟨rfl, rfl⟩
      | some block =>
        simp only [hreg] at hout
        cases hblock : block { nodeId := nodeId, input := resolveInput g st.nodeOutputs nodeId, timestamp := 0, nodeType := node.type } with
        | error msg2 =>
          simp only [hblock] at hout
          subst hout
          refine ⟨fun st' h => ?_, fun st' m h => ?_⟩
          · obtain ⟨errR, h1, h2, h3, hr, he, hk⟩ := (innerCatch_log opts nodeId msg2 st).1 st' h
            exact .inr ⟨errR, h1, h2, h3, hr, he, hk⟩
          · obtain ⟨errR, h1, h2, h3, hr, he, -⟩ := (innerCatch_log opts nodeId msg2 st).2 st' m h
            exact .inr (.inl ⟨errR, h1, h2, h3, hr, he⟩)
        | ok result =>
          simp only [hblock] at hout
          by_cases herr : errTruthy result.error = true
          · rw [if_pos herr] at hout
            by_cases hc : opts.continueOnError = true
            · rw [if_pos hc] at hout
              subst hout
              refine ⟨?_, ?_⟩
              · intro st' h
                cases h
                exact .inl ⟨result, rfl, rfl, rfl⟩
              · intro st' m h
                cases h
            · rw [if_neg hc] at hout
              subst hout
              refine ⟨fun st' h => ?_, fun st' m h => ?_⟩
              · unfold innerCatch at h
                rw [if_neg hc] at h
                cases h
              · obtain ⟨errR, h1, h2, h3, hr, he, -⟩ := (innerCatch_log opts nodeId _ _).2 st' m h
                exact .inr (.inr ⟨result, errR, h1, h2, h3,
                  hr.trans (by simp), he.trans (by simp)⟩)
          · rw [if_neg herr] at hout
            subst hout
            refine ⟨?_, ?_⟩
            · intro st' h
              cases h
              exact .inl ⟨result, rfl, rfl, rfl⟩
            · intro st' m h
              cases h
  exact key _ rfl

/-- Helper: the execution loop generates results and events that stand
in the `RunLog` relation with the order it walks. -/
theorem runLoop_log (g : Graph) (reg : String → Option BlockFn)
    (opts : RunnerOptions) (N : ℕ) :
    ∀ (order : List String) (st : RunState),
      (∀ st', runLoop g reg opts N order st = .ok st' →
        ∃ dr de, st'.results = st.results ++ dr ∧ st'.events = st.events ++ de ∧
          RunLog N st.completedNodes order dr de) ∧
      (∀ st' msg, runLoop g reg opts N order st = .error (st', msg) →
        ∃ dr de, st'.results = st.results ++ dr ∧ st'.events = st.events ++ de ∧
          RunLog N st.completedNodes order dr de) := by
  intro order
  induction order with
  | nil =>
    intro st
    refine ⟨?_, ?_⟩
    · intro st' h
      cases h
      exact ⟨[], [], by simp, by simp, RunLog.done _ _⟩
    · intro st' msg h
      cases h
  | cons nodeId rest ih =>
    intro st
    refine ⟨?_, ?_⟩
    · intro st' h
      unfold runLoop at h
      cases hstep : stepNode g reg opts N st nodeId with
      | error e =>
        simp only [hstep] at h
        cases h
      | ok st1 =>
        simp only [hstep] at h
        obtain ⟨dr, de, hdr, hde, hlog⟩ := (ih st1).1 st' h
        rcases (stepNode_log g reg opts N st nodeId).1 st1 hstep with
          ⟨r, hr1, he1, hk1⟩ | ⟨errR, h1, h2, h3, hr1, he1, hk1⟩
        · refine ⟨r :: dr, RunEvent.progress nodeId
              (((st.completedNodes + 1 : ℕ) : ℚ) / (N : ℚ) * 100) ::
              RunEvent.result r :: de, ?_, ?_, ?_⟩
          · rw [hdr, hr1]
            simp
          · rw [hde, he1]
            simp
          · exact RunLog.ret _ _ _ _ _ _ (hk1 ▸ hlog)
        · refine ⟨errR :: dr, RunEvent.result errR :: de, ?_, ?_, ?_⟩
          · rw [hdr, hr1]
            simp
          · rw [hde, he1]
            simp
          · exact RunLog.threw _ _ _ _ _ _ h1 h2 h3 (hk1 ▸ hlog)
    · intro st' msg h
      unfold runLoop at h
      cases hstep : stepNode g reg opts N st nodeId with
      | error e =>
        obtain ⟨st1, m1⟩ := e
        simp only [hstep] at h
        cases h
        rcases (stepNode_log g reg opts N st nodeId).2 st' msg hstep with
          ⟨hr1, he1⟩ | ⟨errR, h1, h2, h3, hr1, he1⟩ |
          ⟨r, errR, h1, h2, h3, hr1, he1⟩
        · exact ⟨[], [], by simp [hr1], by simp [he1], RunLog.done _ _⟩
        · exact ⟨[errR], [RunEvent.result errR], hr1, he1,
            RunLog.threw _ _ _ _ _ _ h1 h2 h3 (RunLog.done _ _)⟩
        · exact ⟨[r, errR], _, hr1, he1, RunLog.retAbort _ _ _ _ _ h1 h2 h3⟩
      | ok st1 =>
        simp only [hstep] at h
        obtain ⟨dr, de, hdr, hde, hlog⟩ := (ih st1).2 st' msg h
        rcases (stepNode_log g reg opts N st nodeId).1 st1 hstep with
          ⟨r, hr1, he1, hk1⟩ | ⟨errR, h1, h2, h3, hr1, he1, hk1⟩
        · refine ⟨r :: dr, RunEvent.progress nodeId
              (((st.completedNodes + 1 : ℕ) : ℚ) / (N : ℚ) * 100) ::
              RunEvent.result r :: de, ?_, ?_, ?_⟩
          · rw [hdr, hr1]
            simp
          · rw [hde, he1]
            simp
          · exact RunLog.ret _ _ _ _ _ _ (hk1 ▸ hlog)
        · refine ⟨errR :: dr, RunEvent.result errR :: de, ?_, ?_, ?_⟩
          · rw [hdr, hr1]
            simp
          · rw [hde, he1]
            simp
          · exact RunLog.threw _ _ _ _ _ _ h1 h2 h3 (hk1 ▸ hlog)

/-- C9 (amended): the runner's callback log is exactly characterized by
`RunLog`: walking the execution order, each node whose block invocation
returns a result triggers onProgress for that node — exactly once, in
execution order, with percent `c/N*100` where `c` counts returned-result
nodes so far — immediately followed by onResult with the recorded result
(plus one further onResult with that node's synthesized error result when
the returned result flags an error under the abort policy); each node
whose invocation throws triggers only onResult with the error result
synthesized for that node, and no onProgress. -/
theorem run_callback_log_spec (g : Graph) (reg : String → Option BlockFn)
    (opts : RunnerOptions) (t : ExecutionTrace) (evs : List RunEvent)
    (h : GraphRunner.run false g reg opts = .ok (t, evs)) :
    RunLog (runTotalNodes g) 0 (runOrder g) t.results evs := by
  unfold GraphRunner.run at h
  simp only [Bool.false_eq_true, if_false, ite_false] at h
  by_cases hv : (validateGraph g).valid = false
  · rw [if_pos hv] at h
    cases h
    exact RunLog.done 0 _
  · rw [if_neg hv] at h
    cases hsort : topologicalSort g with
    | error e =>
      simp only [hsort] at h
      cases h
      exact RunLog.done 0 _
    | ok order =>
      simp only [hsort] at h
      have hN : runTotalNodes g = order.length := by
        simp [runTotalNodes, hsort]
      have hO : runOrder g = order := by
        simp [runOrder, hsort]
      cases hloop : runLoop g reg opts order.length order initialRunState with
      | ok stf =>
        simp only [hloop] at h
        cases h
        obtain ⟨dr, de, hdr, hde, hlog⟩ :=
          (runLoop_log g reg opts order.length order initialRunState).1 stf hloop
        rw [hN, hO]
        have hdr' : stf.results = dr := by simpa [initialRunState] using hdr
        have hde' : stf.events = de := by simpa [initialRunState] using hde
        rw [show (mkTrace stf.results stf.totalTokens stf.totalApiCalls
          stf.success stf.error).results = stf.results from rfl, hdr', hde']
        exact hlog
      | error e =>
        obtain ⟨stf, m⟩ := e
        simp only [hloop] at h
        cases h
        obtain ⟨dr, de, hdr, hde, hlog⟩ :=
          (runLoop_log g reg opts order.length order initialRunState).2 stf m hloop
        rw [hN, hO]
        have hdr' : stf.results = dr := by simpa [initialRunState] using hdr
        have hde' : stf.events = de := by simpa [initialRunState] using hde
        rw [show (mkTrace stf.results stf.totalTokens stf.totalApiCalls
          false (some m)).results = stf.results from rfl, hdr', hde']
        exact hlog

/-- C9 counterexample: a reached node whose block invocation throws is
recorded (one result) but triggers *no* onProgress call — onProgress is
not invoked after each reached node. -/
theorem run_progress_missing_on_throw_counterexample :
    ∃ t evs, GraphRunner.run false gSingle regThrowAll ⟨true⟩ = .ok (t, evs) ∧
      t.results.length = 1 ∧
      (evs.filter (fun e => match e with
        | RunEvent.progress _ _ => true
        | _ => false)).length = 0 :=
  ⟨_, _, rfl, rfl, rfl⟩

/-- C9 witness: the amended theorem applied to a concrete run whose single
block invocation throws: the log is exactly one result event attributed to
the node, with no progress event. -/
theorem run_callback_log_spec_witness :
    GraphRunner.run false gSingle regThrowAll ⟨true⟩ =
      .ok (mkTrace [synthErrorResult initialRunState "n" "boom"] 0 0 false
        (some "boom"),
        [RunEvent.result (synthErrorResult initialRunState "n" "boom")]) ∧
    RunLog (runTotalNodes gSingle) 0 (runOrder gSingle)
      [synthErrorResult initialRunState "n" "boom"]
      [RunEvent.result (synthErrorResult initialRunState "n" "boom")] :=
  ⟨rfl, run_callback_log_spec gSingle regThrowAll ⟨true⟩ _ _ rfl⟩

/-! ### C2: input fan-in resolution -/

/-- Helper: `enumFrom` commutes with `map` on the element component. -/
theorem enumFrom_map_prodmap {α β : Type} (f : α → β) :
    ∀ (n : ℕ) (l : List α),
      (l.map f).enumFrom n = (l.enumFrom n).map (Prod.map id f) := by
  intro n l
  induction l generalizing n with
  | nil => rfl
  | cons a l ih => simp [List.enumFrom, ih]

/-- Helper: `enum` commutes with `map` on the element component. -/
theorem enum_map_prodmap {α β : Type} (f : α → β) (l : List α) :
    (l.map f).enum = l.enum.map (Prod.map id f) :=
  enumFrom_map_prodmap f 0 l

/-- Helper: `find?` returns the unique element satisfying the predicate. -/
theorem find?_eq_some_of_unique {α : Type} (p : α → Bool) :
    ∀ (l : List α) (x : α), x ∈ l → p x = true → (∀ y ∈ l, p y = true → y = x) →
      l.find? p = some x := by
  intro l
  induction l with
  | nil => intro x hx; cases hx
  | cons a l ih =>
    intro x hx hp huniq
    by_cases hpa : p a = true
    · rw [List.find?_cons_of_pos _ hpa, huniq a (List.mem_cons_self a l) hpa]
    · rw [List.find?_cons_of_neg _ hpa]
      rcases List.mem_cons.mp hx with rfl | hxl
      · exact absurd hp hpa
      · exact ih x hxl hp (fun y hy hpy => huniq y (List.mem_cons_of_mem a hy) hpy)

/-- Helper: folding `objInsert` over pairwise-fresh keys appends them. -/
theorem foldl_objInsert_fresh {α : Type} (k : α → String) (v : α → Value) :
    ∀ (l : List α) (acc : List (String × Value)),
      (l.map k).Nodup → (∀ x ∈ l, k x ∉ acc.map Prod.fst) →
      l.foldl (fun a x => objInsert a (k x) (v x)) acc =
        acc ++ l.map (fun x => (k x, v x)) := by
  intro l
  induction l with
  | nil => simp
  | cons a l ih =>
    intro acc hnd hfresh
    have hka : (acc.map Prod.fst).contains (k a) = false := by
      simpa using hfresh a (List.mem_cons_self a l)
    rw [List.foldl_cons]
    rw [show objInsert acc (k a) (v a) = acc ++ [(k a, v a)] from by
      unfold objInsert
      rw [if_neg (by rw [hka]; exact Bool.false_ne_true)]]
    rw [ih (acc ++ [(k a, v a)]) (List.Nodup.of_cons hnd) ?_]
    · simp
    · intro x hx
      simp only [List.map_append, List.mem_append]
      rintro (hmem | hmem)
      · exact hfresh x (List.mem_cons_of_mem a hx) hmem
      · have : k x = k a := by simpa using hmem
        have hne : k x ≠ k a := by
          have := (List.nodup_cons.mp hnd).1
          intro hEq
          exact this (hEq ▸ List.mem_map_of_mem k hx)
        exact hne this

/-- Helper: the element of an `enum` entry belongs to the list. -/
theorem mem_of_mem_enum {α : Type} {l : List α} {p : ℕ × α} (h : p ∈ l.enum) :
    p.2 ∈ l := by
  have h2 := List.mem_enum_iff_getElem?.mp h
  exact List.getElem?_mem h2

/-- Helper: when the inbound sources are pairwise distinct, the runner's
`find?` lookup for a source recovers exactly that inbound edge. -/
theorem find?_inbound (g : Graph) (nodeId : String)
    (hsrc : ((inboundEdges g nodeId).map (·.source)).Nodup) :
    ∀ e ∈ inboundEdges g nodeId,
      g.edges.find? (fun x => x.source == e.source && x.target == nodeId) = some e := by
  intro e he
  have hmem : e ∈ g.edges := (List.mem_filter.mp he).1
  have htgt : (e.target == nodeId) = true := (List.mem_filter.mp he).2
  apply find?_eq_some_of_unique _ _ _ hmem (by simp [htgt])
  intro y hy hpy
  rw [Bool.and_eq_true] at hpy
  have hyin : y ∈ inboundEdges g nodeId := List.mem_filter.mpr ⟨hy, hpy.2⟩
  exact List.inj_on_of_nodup_map hsrc hyin he (by simpa using hpy.1)

/-- Helper: the multi-input case of the fan-in, for pairwise-distinct
sources and pairwise-distinct derived keys. -/
theorem resolveInput_multi (g : Graph) (outputs : List (String × Value)) (nodeId : String)
    (hlen : 2 ≤ (inboundEdges g nodeId).length)
    (hsrc : ((inboundEdges g nodeId).map (·.source)).Nodup)
    (hkeys : ((inboundEdges g nodeId).enum.map (fun p => fanInKey p.2 p.1)).Nodup) :
    resolveInput g outputs nodeId =
      .obj ((inboundEdges g nodeId).enum.map
        (fun p => (fanInKey p.2 p.1, mapGet outputs p.2.source))) := by
  have hin : getInputNodes g nodeId = (inboundEdges g nodeId).map (·.source) := rfl
  obtain ⟨e1, es2, hsh⟩ : ∃ e1 es2, inboundEdges g nodeId = e1 :: es2 := by
    cases h : inboundEdges g nodeId with
    | nil => rw [h] at hlen; simp at hlen
    | cons a l => exact ⟨a, l, rfl⟩
  obtain ⟨e2, es3, hsh2⟩ : ∃ e2 es3, es2 = e2 :: es3 := by
    cases h2 : es2 with
    | nil => rw [h2] at hsh; rw [hsh] at hlen; simp at hlen
    | cons b m => exact ⟨b, m, rfl⟩
  have hkey : ∀ p ∈ (inboundEdges g nodeId).enum,
      (fun q : ℕ × GraphEdge =>
        (match g.edges.find? (fun x => x.source == q.2.source && x.target == nodeId) with
         | some e =>
           match e.targetHandle with
           | some h => if h = "" then "input" ++ toString (q.1 + 1) else h
           | none => "input" ++ toString (q.1 + 1)
         | none => "input" ++ toString (q.1 + 1))) p = fanInKey p.2 p.1 := by
    intro p hp
    simp only
    rw [find?_inbound g nodeId hsrc p.2 (mem_of_mem_enum hp)]
    rfl
  simp only [resolveInput, hin, hsh, hsh2, List.map_cons]
  rw [show ((e1.source :: e2.source :: es3.map (·.source)).enum =
      ((e1 :: e2 :: es3).map (·.source)).enum) from by simp]
  rw [enum_map_prodmap, List.foldl_map]
  rw [← hsh2, ← hsh]
  simp only [Prod.map, id_eq]
  rw [foldl_objInsert_fresh
    (fun q : ℕ × GraphEdge =>
      (match g.edges.find? (fun x => x.source == q.2.source && x.target == nodeId) with
       | some e =>
         match e.targetHandle with
         | some h => if h = "" then "input" ++ toString (q.1 + 1) else h
         | none => "input" ++ toString (q.1 + 1)
       | none => "input" ++ toString (q.1 + 1)))
    (fun q => mapGet outputs q.2.source) _ []
    (by rw [List.map_congr_left hkey]; exact hkeys)
    (by intro x hx; simp)]
  rw [List.nil_append]
  congr 1
  apply List.map_congr_left
  intro p hp
  exact congrArg (fun s => (s, mapGet outputs p.2.source)) (hkey p hp)

/-- Helper: the zero-inbound-edge case of the fan-in. -/
theorem resolveInput_zero (g : Graph) (outputs : List (String × Value)) (nodeId : String)
    (h : inboundEdges g nodeId = []) : resolveInput g outputs nodeId = .null := by
  have hin : getInputNodes g nodeId = (inboundEdges g nodeId).map (·.source) := rfl
  simp only [resolveInput, hin, h, List.map_nil]

/-- Helper: the single-inbound-edge case of the fan-in. -/
theorem resolveInput_one (g : Graph) (outputs : List (String × Value)) (nodeId : String)
    (e : GraphEdge) (h : inboundEdges g nodeId = [e]) :
    resolveInput g outputs nodeId = mapGet outputs e.source := by
  have hin : getInputNodes g nodeId = (inboundEdges g nodeId).map (·.source) := rfl
  simp only [resolveInput, hin, h, List.map_cons, List.map_nil]

/-- C2 (amended): the input the runner resolves for a node is: `null` with
zero inbound edges; the producer's stored output with exactly one; with
several, *provided the inbound edges have pairwise-distinct sources and
the derived keys are pairwise distinct*, an object with one entry per
inbound edge, keyed by that edge's `targetHandle` (falling back to the
positional key `input{N}` when the handle is unset or empty), each value
being the stored output of that edge's source.  (With duplicate sources
the runner reuses the first matching edge's handle; colliding keys
overwrite.) -/
theorem resolveInput_fanin_spec (g : Graph) (outputs : List (String × Value))
    (nodeId : String) :
    (inboundEdges g nodeId = [] → resolveInput g outputs nodeId = .null) ∧
    (∀ e, inboundEdges g nodeId = [e] →
      resolveInput g outputs nodeId = mapGet outputs e.source) ∧
    (2 ≤ (inboundEdges g nodeId).length →
      ((inboundEdges g nodeId).map (·.source)).Nodup →
      ((inboundEdges g nodeId).enum.map (fun p => fanInKey p.2 p.1)).Nodup →
      resolveInput g outputs nodeId =
        .obj ((inboundEdges g nodeId).enum.map
          (fun p => (fanInKey p.2 p.1, mapGet outputs p.2.source)))) :=
  ⟨resolveInput_zero g outputs nodeId,
   fun e he => resolveInput_one g outputs nodeId e he,
   fun h1 h2 h3 => resolveInput_multi g outputs nodeId h1 h2 h3⟩

/-- C2 witness: the amended theorem at the claim's own example — two
inbound edges with handles `a` and `b` yield `{a: outputA, b: outputB}`. -/
theorem resolveInput_fanin_spec_witness :
    2 ≤ (inboundEdges gFanIn "R").length ∧
    ((inboundEdges gFanIn "R").map (·.source)).Nodup ∧
    ((inboundEdges gFanIn "R").enum.map (fun p => fanInKey p.2 p.1)).Nodup ∧
    resolveInput gFanIn [("P", .num 1), ("Q", .num 2)] "R" =
      .obj [("a", .num 1), ("b", .num 2)] :=
  ⟨by decide, by decide, by decide,
   ((resolveInput_fanin_spec gFanIn [("P", .num 1), ("Q", .num 2)] "R").2.2
     (by decide) (by decide) (by decide)).trans rfl⟩

/-- C2 counterexample: with two inbound edges from the *same* source
carrying handles `a` and `b`, the resolved object has a single key `a`,
not one key per inbound edge — the runner iterates over source ids and
`find?` returns the first matching edge both times. -/
theorem resolveInput_duplicate_source_counterexample :
    (inboundEdges gFanInDup "Q").length = 2 ∧
    (inboundEdges gFanInDup "Q").map (·.targetHandle) = [some "a", some "b"] ∧
    resolveInput gFanInDup [("P", .num 1)] "Q" = .obj [("a", .num 1)] :=
  ⟨rfl, rfl, rfl⟩

/-! ### C5: observability score of a clean trace -/

/-- C5 counterexample: a successful trace with no errors and every input
non-null whose single node took 5000 ms scores 80, not 100 — the score
also depends on the mean per-node duration. -/
theorem observability_score_slow_trace_counterexample :
    slowTrace.success = true ∧
    slowTrace.results.all (fun r => !errTruthy r.error) = true ∧
    slowTrace.results.all inputNotNull = true ∧
    calculateObservabilityScore slowTrace = .fin 80 ∧
    calculateObservabilityScore slowTrace ≠ .fin 100 := by
  refine ⟨rfl, rfl, rfl, ?_, ?_⟩ <;> with_unfolding_all decide

/-- C5 (amended): a trace with `success = true`, zero error-flagged
results, every result's input non-null, at least one result, *and* mean
per-node duration below 1000 ms scores exactly 100. -/
theorem observability_score_clean_fast_trace_100 (t : ExecutionTrace)
    (hs : t.success = true)
    (hne : t.results ≠ [])
    (herr : ∀ r ∈ t.results, errTruthy r.error = false)
    (hconn : ∀ r ∈ t.results, inputNotNull r = true)
    (hdur : t.totalDuration / (t.results.length : ℚ) < 1000) :
    calculateObservabilityScore t = .fin 100 := by
  have hn : ((t.results.length : ℕ) : ℚ) ≠ 0 := by
    have := List.length_pos.mpr hne
    positivity
  have hferr : t.results.filter (fun r => errTruthy r.error) = [] := by
    rw [List.filter_eq_nil_iff]
    intro a ha
    simp [herr a ha]
  have hfconn : t.results.filter inputNotNull = t.results := by
    rw [List.filter_eq_self]
    intro a ha
    simp [hconn a ha]
  simp only [calculateObservabilityScore, hferr, hfconn, hs, List.length_nil,
    jdiv, jadd, jlt, jmul, jmin, jround, if_true, ite_true]
  rw [if_neg hn, if_neg hn]
  rw [div_self hn]
  simp only [hdur, decide_eq_true_eq, if_pos, ite_true, if_true]
  norm_num

/-- C5 witness: the amended theorem applied to a concrete clean fast
trace. -/
theorem observability_score_clean_fast_trace_100_witness :
    fastTrace.success = true ∧ fastTrace.results ≠ [] ∧
    (∀ r ∈ fastTrace.results, errTruthy r.error = false) ∧
    (∀ r ∈ fastTrace.results, inputNotNull r = true) ∧
    fastTrace.totalDuration / (fastTrace.results.length : ℚ) < 1000 ∧
    calculateObservabilityScore fastTrace = .fin 100 :=
  ⟨rfl, by simp [fastTrace], by decide, by decide, by norm_num [fastTrace],
   observability_score_clean_fast_trace_100 fastTrace rfl (by simp [fastTrace])
     (by decide) (by decide) (by norm_num [fastTrace])⟩

/-! ### C8: range of the observability score -/

/-- Helper: `Math.min(100, Math.round(x))` of a finite score in `[0, 100]`
is a finite number in `[0, 100]`. -/
theorem jmin_jround_bound (x : ℚ) (h0 : 0 ≤ x) :
    ∃ q, jmin (.fin 100) (jround (.fin x)) = .fin q ∧ 0 ≤ q ∧ q ≤ 100 := by
  refine ⟨min 100 ((⌊x + 1/2⌋ : ℤ) : ℚ), by simp [jmin, jround], ?_, min_le_left _ _⟩
  have hf : (0 : ℤ) ≤ ⌊x + 1/2⌋ := by
    rw [Int.le_floor]
    push_cast
    linarith
  have : (0 : ℚ) ≤ ((⌊x + 1/2⌋ : ℤ) : ℚ) := by exact_mod_cast hf
  exact le_min (by norm_num) this

/-- Helper: for a trace with at least one result, every division in
`calculateObservabilityScore` is finite and the score lands in `[0, 100]`. -/
theorem calcObs_bounds (t : ExecutionTrace) (h : t.results ≠ []) :
    ∃ q : ℚ, calculateObservabilityScore t = .fin q ∧ 0 ≤ q ∧ q ≤ 100 := by
  have hnpos : 0 < t.results.length := List.length_pos.mpr h
  have hn : ((t.results.length : ℕ) : ℚ) ≠ 0 := by positivity
  have hnq : (0 : ℚ) < ((t.results.length : ℕ) : ℚ) := by exact_mod_cast hnpos
  have hw : ((t.results.filter inputNotNull).length : ℚ) ≤ t.results.length := by
    exact_mod_cast List.length_filter_le _ _
  have hcs : ((t.results.filter inputNotNull).length : ℚ) / t.results.length * 30 ≤ 30 := by
    have := (div_le_one hnq).mpr hw
    nlinarith
  have hcs0 : (0 : ℚ) ≤
      ((t.results.filter inputNotNull).length : ℚ) / t.results.length * 30 := by
    positivity
  have he0 : (0 : ℚ) ≤
      ((t.results.filter (fun r => errTruthy r.error)).length : ℚ) /
        t.results.length * 20 := by
    positivity
  simp only [calculateObservabilityScore, jdiv, jadd, jmul, jmax, jsub, jneg, hn,
    if_false, ite_false]
  split_ifs <;>
    refine jmin_jround_bound _ ?_ <;>
    linarith [le_max_left (0 : ℚ)
      (20 + -(((t.results.filter (fun r => errTruthy r.error)).length : ℚ) /
        t.results.length * 20)),
      max_le (by linarith : (0 : ℚ) ≤ 20)
        (by linarith : 20 + -(((t.results.filter (fun r => errTruthy r.error)).length : ℚ) /
          t.results.length * 20) ≤ 20)]

/-- C8 counterexample: for a trace whose results array is empty, the
divisions by `trace.results.length` inside the score produce `NaN`, which
propagates: the observability score computed by `evaluate` is `NaN`, not a
number in `[0, 100]`. -/
theorem evaluate_empty_trace_nan_counterexample :
    (evaluate emptyTrace trivialLevel).observabilityScore = JNum.nan ∧
    ¬ ∃ q : ℚ, (evaluate emptyTrace trivialLevel).observabilityScore = .fin q ∧
        0 ≤ q ∧ q ≤ 100 := by
  have h : (evaluate emptyTrace trivialLevel).observabilityScore = JNum.nan := by
    with_unfolding_all rfl
  refine ⟨h, ?_⟩
  rw [h]
  rintro ⟨q, hq, -⟩
  cases hq

/-- C8 (amended): for every trace with at least one result, the
observability score computed by `evaluate` is a finite number in the range
0 to 100 inclusive. -/
theorem evaluate_observability_in_range (t : ExecutionTrace)
    (lvl : LevelDefinition) (h : t.results ≠ []) :
    ∃ q : ℚ, (evaluate t lvl).observabilityScore = .fin q ∧ 0 ≤ q ∧ q ≤ 100 := by
  have hobs : (evaluate t lvl).observabilityScore = calculateObservabilityScore t := rfl
  rw [hobs]
  exact calcObs_bounds t h

/-- C8 witness: the amended theorem applied to a concrete one-result
trace. -/
theorem evaluate_observability_in_range_witness :
    fastTrace.results ≠ [] ∧
    ∃ q : ℚ, (evaluate fastTrace trivialLevel).observabilityScore = .fin q ∧
      0 ≤ q ∧ q ≤ 100 :=
  ⟨by simp [fastTrace],
   evaluate_observability_in_range fastTrace trivialLevel (by simp [fastTrace])⟩

/-! ### C3: error policy on a linear three-node graph -/

/-- C3: on the linear three-node graph whose second block throws, with
`continueOnError = false` (the default) the returned trace has exactly two
results (the first node's result plus the second node's synthesized error
result) and `success = false`; with `continueOnError = true` all three
nodes attempt execution and the trace has three results. -/
theorem run_linear_three_node_error_policy (va vc : Value) (msg : String) :
    (∃ t evs, GraphRunner.run false linGraph3 (linRegistry3 va vc msg) ⟨false⟩ =
        .ok (t, evs) ∧ t.results.length = 2 ∧ t.success = false) ∧
    (∃ t evs, GraphRunner.run false linGraph3 (linRegistry3 va vc msg) ⟨true⟩ =
        .ok (t, evs) ∧ t.results.length = 3) :=
  ⟨⟨_, _, rfl, rfl, rfl⟩, ⟨_, _, rfl, rfl⟩⟩

/-! ### C4: behaviour of `run` on an invalid graph -/

/-- C4 counterexample: on an invalid graph (a dangling edge), `run` does
*not* reject the promise; it resolves with an `ExecutionTrace` (empty
results, `success = false`, the validation message as `error`), because
the validation throw happens inside the `try` whose catch converts every
escaping error into a failed trace. -/
theorem run_invalid_graph_counterexample :
    GraphRunner.run false gOrphanEdge (fun _ => none) ⟨false⟩ =
      .ok (mkTrace [] 0 0 false
        (some ("Graph validation failed: " ++
          "Edge references non-existent source node: x, " ++
          "Edge references non-existent target node: y")), []) := rfl

/-- C4 (amended): for every invalid graph, `run` resolves — it does not
reject — with a failed trace: empty results, `success = false`, and the
joined validation errors as the trace's `error` message.  (Only the
`AlreadyRunning` reentrancy check rejects the promise.) -/
theorem run_invalid_graph_returns_failed_trace
    (g : Graph) (registry : String → Option BlockFn) (opts : RunnerOptions)
    (h : (validateGraph g).valid = false) :
    GraphRunner.run false g registry opts =
      .ok (mkTrace [] 0 0 false
        (some ("Graph validation failed: " ++
          String.intercalate ", " (validateGraph g).errors)), []) := by
  unfold GraphRunner.run
  simp [h]

/-- C4 witness: the amended theorem applied to a concrete invalid graph. -/
theorem run_invalid_graph_returns_failed_trace_witness :
    (validateGraph gOrphanEdge).valid = false ∧
    GraphRunner.run false gOrphanEdge (fun _ => none) ⟨false⟩ =
      .ok (mkTrace [] 0 0 false
        (some ("Graph validation failed: " ++
          String.intercalate ", " (validateGraph gOrphanEdge).errors)), []) :=
  ⟨by decide, run_invalid_graph_returns_failed_trace gOrphanEdge (fun _ => none)
      ⟨false⟩ (by decide)⟩

/-! ### C7: validateGraph and dangling edges -/

/-- Helper: the length of the per-edge error lists produced by
`validateGraph` is one per missing endpoint. -/
theorem flatMap_endpoint_errors_length (P Q : GraphEdge → Bool)
    (mkP mkQ : GraphEdge → String) :
    ∀ es : List GraphEdge,
      (es.flatMap (fun e =>
        (if P e then [] else [mkP e]) ++ (if Q e then [] else [mkQ e]))).length =
      (es.filter (fun e => !P e)).length + (es.filter (fun e => !Q e)).length := by
  intro es
  induction es with
  | nil => rfl
  | cons e es ih =>
    simp only [List.flatMap_cons, List.filter_cons, List.length_append, ih]
    cases hP : P e <;> cases hQ : Q e <;> simp [hP, hQ] <;> omega

/-- C7 counterexample: a single edge whose source *and* target are both
missing is one dangling edge but produces two error strings. -/
theorem validateGraph_double_dangling_counterexample :
    (validateGraph gOrphanEdge).errors.length = 2 ∧
    (gOrphanEdge.edges.filter (fun e =>
      !(nodeIds gOrphanEdge).contains e.source ||
      !(nodeIds gOrphanEdge).contains e.target)).length = 1 := by
  constructor <;> rfl

/-- C7 (amended): `validateGraph` accumulates (never throws) exactly one
error string per dangling *endpoint*: one for each edge whose source is
missing and one for each edge whose target is missing — so an edge with
both endpoints missing contributes two — plus one error if the
topological sort fails. -/
theorem validateGraph_dangling_endpoint_errors (g : Graph) :
    (validateGraph g).errors.length =
      (match topologicalSort g with | .ok _ => 0 | .error _ => 1) +
      ((g.edges.filter (fun e => !(nodeIds g).contains e.source)).length +
       (g.edges.filter (fun e => !(nodeIds g).contains e.target)).length) := by
  unfold validateGraph
  simp only [List.length_append]
  rw [flatMap_endpoint_errors_length]
  cases topologicalSort g <;> rfl
